import Mathlib

/-!
Verification of the osp-magnum core against its natural-language
specification.  The development shallowly embeds two subsystems:

* the tag-based task scheduler (`task_enqueue`, `compare_tags`,
  `task_list_available`, `task_start`, `task_finish` from
  `src/osp/Shaders/Flat.h`, second document, lines 163-318), and
* the subdivision structures (`IdRegistry`, `SubdivIdTree`,
  `SubdivSkeleton`, `SubdivTriangleSkeleton::vrtx_create_chunk_edge_recurse`
  from `src/planet-a/SubdivSkeleton.h`).

Word-packed C++ bitsets (`BitSpan_t`, `lgrn::bit_view`) are embedded as
single natural numbers: a word-wise loop such as `(maskInt & taskTagInt)
!= taskTagInt` over all words of two equally sized spans is equivalent to
the same bitwise operation on the packed values, so `Nat.land` / `Nat.lor`
/ `Nat.testBit` model them exactly.  `uint8_t` counters are embedded with
explicit `% 256` where the C++ increments and decrements wrap.
-/

namespace OspMagnum

/-- Pointwise update of a `Nat`-valued counter array (the embedding of a
`std::vector` of counters indexed by dense IDs, where only finitely many
entries are ever touched). -/
def setAt (f : Nat → Nat) (i v : Nat) : Nat → Nat :=
  fun j => if j = i then v else f j

/-- Pointwise update of a `Bool`-valued map (used for the ghost
started-task flags of the scheduler's execution traces). -/
def setB (f : Nat → Bool) (i : Nat) (v : Bool) : Nat → Bool :=
  fun j => if j = i then v else f j

/-- Positions of the set bits of `bits` inside a bit view of `width` bits:
the embedding of `lgrn::bit_view(words).ones()`, which iterates the ones of
a span whose size is the word count times 64. -/
def bitsList (width bits : Nat) : List Nat :=
  (List.range width).filter (fun i => bits.testBit i)

/-- Increment a counter array once at every index of `l`, in order (the
embedding of `for (tag : view.ones()) counts[tag]++`). -/
def bumpUp (f : Nat → Nat) (l : List Nat) : Nat → Nat :=
  l.foldl (fun g i => setAt g i (g i + 1)) f

/-- Decrement a counter array once at every index of `l`, in order (the
embedding of `for (tag : view.ones()) counts[tag]--`; the C++ counters are
spec-guaranteed non-negative, so the embedding uses truncated `Nat`
subtraction, and every use below is in the non-underflowing regime). -/
def bumpDown (f : Nat → Nat) (l : List Nat) : Nat → Nat :=
  l.foldl (fun g i => setAt g i (g i - 1)) f

/-- Clear bit `i` of `m`: the embedding of `lgrn::bit_view::reset`. -/
def clearBit (m i : Nat) : Nat :=
  if m.testBit i then m ^^^ (2 ^ i) else m

/-- Modelled from the spec: the `TaskTags` structure is declared in
`execute_simple.h` / `tasks.h`, which is not part of the sources; §3 and §6
of the spec describe it as a dense bitmap of tag IDs, a dense bitmap of
task IDs, a row-major word-packed per-task tag bitset (`tag_ints_per_task`
words per task), and a flat null-terminated dependency array of stride
`m_tagDependsPerTag`.  `tagBits` is the bit width of one packed row, i.e.
64 * `tag_ints_per_task`; live tags are `0 .. numTags-1` and live tasks are
`0 .. numTasks-1` (the spec's dense bitmaps). -/
structure TaskTags where
  numTags : Nat
  numTasks : Nat
  tagBits : Nat
  m_taskTags : Nat → Nat
  m_tagDepends : List (Option Nat)
  m_tagDependsPerTag : Nat

/-- Modelled from the spec: the `ExecutionContext` structure is declared in
`execute_simple.h`, which is not part of the sources; §3 of the spec lists
its three counter arrays (`queued[task]`, `running[tag]`,
`incomplete[tag]`) and states that the counters are non-negative, so they
are embedded as `Nat`. -/
structure ExecutionContext where
  m_taskQueuedCounts : Nat → Nat
  m_tagRunningCounts : Nat → Nat
  m_tagIncompleteCounts : Nat → Nat

/-- The all-zero execution context (freshly constructed counters). -/
def execZero : ExecutionContext :=
  { m_taskQueuedCounts := fun _ => 0
    m_tagRunningCounts := fun _ => 0
    m_tagIncompleteCounts := fun _ => 0 }

/-- One iteration of the `task_enqueue` loop body for task `t`: if the
task's queued count is zero and any of its tag bits intersect the query,
set the queued count to 1 and increment the incomplete count of every tag
in the task's row. -/
def enqueueStep (tt : TaskTags) (query : Nat) (exec : ExecutionContext)
    (t : Nat) : ExecutionContext :=
  if exec.m_taskQueuedCounts t = 0 then
    if query &&& tt.m_taskTags t ≠ 0 then
      { exec with
        m_taskQueuedCounts := setAt exec.m_taskQueuedCounts t 1
        m_tagIncompleteCounts :=
          bumpUp exec.m_tagIncompleteCounts (bitsList tt.tagBits (tt.m_taskTags t)) }
    else exec
  else exec

/-- Embedding of `osp::task_enqueue` (Flat.h second document, lines
163-204): iterate the live tasks, and enqueue each not-yet-queued task
whose tag bitset intersects the query. -/
def task_enqueue (tt : TaskTags) (exec : ExecutionContext) (query : Nat) :
    ExecutionContext :=
  (List.range tt.numTasks).foldl (enqueueStep tt query) exec

/-- Embedding of the static `compare_tags` (Flat.h second document, lines
206-221): true when no 1 bit of `taskBits` meets a 0 bit of `mask`. -/
def compare_tags (mask taskBits : Nat) : Bool :=
  mask &&& taskBits == taskBits

/-- The dependency row of tag `k` in the flat `m_tagDepends` array: the
`m_tagDependsPerTag` entries starting at offset `k * m_tagDependsPerTag`. -/
def depsRow (tt : TaskTags) (k : Nat) : List (Option Nat) :=
  (tt.m_tagDepends.drop (k * tt.m_tagDependsPerTag)).take tt.m_tagDependsPerTag

/-- The dependencies the `task_list_available` loop actually reads for tag
`k`: the entries of the row before the first null ID (the loop breaks at
`lgrn::id_null`). -/
def declaredDeps (tt : TaskTags) (k : Nat) : List Nat :=
  ((depsRow tt k).takeWhile Option.isSome).filterMap id

/-- Tag `k` is satisfied when every dependency read for it has incomplete
count zero (the `satisfied` flag of the `task_list_available` loop). -/
def tagSatisfied (tt : TaskTags) (exec : ExecutionContext) (k : Nat) : Bool :=
  (declaredDeps tt k).all (fun d => exec.m_tagIncompleteCounts d == 0)

/-- The allowed-tag mask built by `task_list_available`: all ones over the
packed width, with the bit of every live tag that has an incomplete
dependency cleared. -/
def allowedMask (tt : TaskTags) (exec : ExecutionContext) : Nat :=
  (List.range tt.numTags).foldl
    (fun mask k => if tagSatisfied tt exec k then mask else clearBit mask k)
    (2 ^ tt.tagBits - 1)

/-- Embedding of `osp::task_list_available` (Flat.h second document, lines
223-287): build the allowed mask, then set the output bit of every live
task that is queued and whose whole tag row is allowed. -/
def task_list_available (tt : TaskTags) (exec : ExecutionContext)
    (tasksOut : Nat) : Nat :=
  let mask := allowedMask tt exec
  (List.range tt.numTasks).foldl
    (fun out t =>
      if exec.m_taskQueuedCounts t = 0 then out
      else if compare_tags mask (tt.m_taskTags t) then out ||| 2 ^ t
      else out)
    tasksOut

/-- Embedding of `osp::task_start` (Flat.h second document, lines 289-301):
increment the running count of every tag of the task's row. -/
def task_start (tt : TaskTags) (exec : ExecutionContext) (task : Nat) :
    ExecutionContext :=
  { exec with
    m_tagRunningCounts :=
      bumpUp exec.m_tagRunningCounts (bitsList tt.tagBits (tt.m_taskTags task)) }

/-- Embedding of `osp::task_finish` (Flat.h second document, lines
303-318): decrement the task's queued count, and the running and
incomplete counts of every tag of the task's row. -/
def task_finish (tt : TaskTags) (exec : ExecutionContext) (task : Nat) :
    ExecutionContext :=
  { m_taskQueuedCounts :=
      setAt exec.m_taskQueuedCounts task (exec.m_taskQueuedCounts task - 1)
    m_tagRunningCounts :=
      bumpDown exec.m_tagRunningCounts (bitsList tt.tagBits (tt.m_taskTags task))
    m_tagIncompleteCounts :=
      bumpDown exec.m_tagIncompleteCounts (bitsList tt.tagBits (tt.m_taskTags task)) }

/-! Basic lemmas about the counter-array and bitset helpers. -/

theorem setAt_self (f : Nat → Nat) (i v : Nat) : setAt f i v i = v := by
  simp [setAt]

theorem setAt_ne (f : Nat → Nat) (i v j : Nat) (h : j ≠ i) :
    setAt f i v j = f j := by
  simp [setAt, h]

theorem bumpUp_apply (l : List Nat) (f : Nat → Nat) (y : Nat) :
    bumpUp f l y = f y + l.count y := by
  induction l generalizing f with
  | nil => simp [bumpUp]
  | cons a l ih =>
    simp only [bumpUp, List.foldl_cons] at *
    rw [ih, List.count_cons]
    by_cases h : y = a
    · subst h
      simp [setAt]
      omega
    · simp [setAt, h, beq_iff_eq, Ne.symm h]

theorem bumpDown_apply (l : List Nat) (f : Nat → Nat) (y : Nat) :
    bumpDown f l y = f y - l.count y := by
  induction l generalizing f with
  | nil => simp [bumpDown]
  | cons a l ih =>
    simp only [bumpDown, List.foldl_cons] at *
    rw [ih, List.count_cons]
    by_cases h : y = a
    · subst h
      simp [setAt]
      omega
    · simp [setAt, h, beq_iff_eq, Ne.symm h]

theorem bitsList_mem (w b i : Nat) :
    i ∈ bitsList w b ↔ i < w ∧ b.testBit i = true := by
  simp [bitsList, List.mem_filter, List.mem_range]

theorem bitsList_nodup (w b : Nat) : (bitsList w b).Nodup :=
  (List.nodup_range w).filter _

theorem bitsList_count (w b i : Nat) :
    (bitsList w b).count i = if i ∈ bitsList w b then 1 else 0 := by
  by_cases h : i ∈ bitsList w b
  · simp [h, List.count_eq_one_of_mem (bitsList_nodup w b) h]
  · simp [h, List.count_eq_zero_of_not_mem h]

theorem clearBit_testBit (m i j : Nat) :
    (clearBit m i).testBit j = if j = i then false else m.testBit j := by
  unfold clearBit
  by_cases hj : j = i
  · subst hj
    by_cases hm : m.testBit j
    · simp [hm, Nat.testBit_xor, Nat.testBit_two_pow]
    · simp [hm]
  · have hd : decide (i = j) = false := decide_eq_false (fun h => hj h.symm)
    by_cases hm : m.testBit i
    · simp [hm, Nat.testBit_xor, Nat.testBit_two_pow, hj, hd]
    · simp [hm, hj]

/-! Characterization of the allowed-tag mask and of `compare_tags`. -/

theorem foldl_clearBit_testBit (sat : Nat → Bool) (l : List Nat) (m0 i : Nat) :
    ((l.foldl (fun m k => if sat k then m else clearBit m k) m0).testBit i = true) ↔
      (m0.testBit i = true ∧ (i ∈ l → sat i = true)) := by
  induction l generalizing m0 with
  | nil => simp
  | cons a l ih =>
    simp only [List.foldl_cons]
    rw [ih]
    rcases Bool.eq_false_or_eq_true (sat a) with ha | ha
    · rw [if_pos ha]
      simp only [List.mem_cons]
      constructor
      · rintro ⟨h1, h2⟩
        exact ⟨h1, fun h => h.elim (fun he => he ▸ ha) h2⟩
      · rintro ⟨h1, h2⟩
        exact ⟨h1, fun h => h2 (Or.inr h)⟩
    · rw [if_neg (by simp [ha])]
      by_cases hia : i = a
      · subst hia
        simp [clearBit_testBit, ha]
      · rw [clearBit_testBit, if_neg hia]
        simp only [List.mem_cons]
        constructor
        · rintro ⟨h1, h2⟩
          exact ⟨h1, fun h => h.elim (fun he => absurd he hia) h2⟩
        · rintro ⟨h1, h2⟩
          exact ⟨h1, fun h => h2 (Or.inr h)⟩

theorem allowedMask_testBit (tt : TaskTags) (exec : ExecutionContext) (i : Nat) :
    (allowedMask tt exec).testBit i = true ↔
      i < tt.tagBits ∧ (i < tt.numTags → tagSatisfied tt exec i = true) := by
  unfold allowedMask
  rw [foldl_clearBit_testBit]
  rw [Nat.testBit_two_pow_sub_one]
  simp [List.mem_range]

theorem compare_tags_iff (mask taskBits : Nat) :
    compare_tags mask taskBits = true ↔
      ∀ i, taskBits.testBit i = true → mask.testBit i = true := by
  unfold compare_tags
  rw [beq_iff_eq]
  constructor
  · intro h i hi
    have h2 : (mask &&& taskBits).testBit i = taskBits.testBit i := by rw [h]
    rw [Nat.testBit_land, hi, Bool.and_true] at h2
    exact h2
  · intro h
    apply Nat.eq_of_testBit_eq
    intro i
    rw [Nat.testBit_land]
    rcases Bool.eq_false_or_eq_true (taskBits.testBit i) with ht | ht
    · rw [ht, h i ht, Bool.true_and]
    · rw [ht, Bool.and_false]

/-! Pointwise characterization of `task_enqueue`. -/

/-- A task qualifies for enqueueing when it is not yet queued and its tag
bitset intersects the query. -/
def enqueueQualifies (tt : TaskTags) (exec : ExecutionContext) (query t : Nat) :
    Prop :=
  exec.m_taskQueuedCounts t = 0 ∧ query &&& tt.m_taskTags t ≠ 0

instance (tt exec query t) : Decidable (enqueueQualifies tt exec query t) := by
  unfold enqueueQualifies
  infer_instance

theorem enqueueStep_queued (tt : TaskTags) (query : Nat)
    (exec : ExecutionContext) (a t : Nat) :
    (enqueueStep tt query exec a).m_taskQueuedCounts t =
      if t = a ∧ enqueueQualifies tt exec query a then 1
      else exec.m_taskQueuedCounts t := by
  unfold enqueueStep enqueueQualifies
  by_cases h0 : exec.m_taskQueuedCounts a = 0
  · by_cases hq : query &&& tt.m_taskTags a ≠ 0
    · simp only [h0, hq, if_true, if_pos rfl]
      by_cases hta : t = a
      · subst hta
        simp [setAt, h0, hq]
      · simp [setAt, hta, h0, hq]
    · simp only [hq, if_false]
      simp [hq]
  · simp only [h0, if_false]
    simp [h0]

theorem enqueueStep_running (tt : TaskTags) (query : Nat)
    (exec : ExecutionContext) (a : Nat) :
    (enqueueStep tt query exec a).m_tagRunningCounts = exec.m_tagRunningCounts := by
  unfold enqueueStep
  split <;> try rfl
  split <;> rfl

theorem enqueueQualifies_congr (tt : TaskTags) (e e' : ExecutionContext)
    (query t : Nat) (h : e'.m_taskQueuedCounts t = e.m_taskQueuedCounts t) :
    enqueueQualifies tt e' query t ↔ enqueueQualifies tt e query t := by
  unfold enqueueQualifies
  rw [h]

theorem enqueueStep_incomplete (tt : TaskTags) (query : Nat)
    (exec : ExecutionContext) (a tag : Nat) :
    (enqueueStep tt query exec a).m_tagIncompleteCounts tag =
      exec.m_tagIncompleteCounts tag +
        if enqueueQualifies tt exec query a ∧
            tag ∈ bitsList tt.tagBits (tt.m_taskTags a) then 1 else 0 := by
  unfold enqueueStep enqueueQualifies
  by_cases h0 : exec.m_taskQueuedCounts a = 0
  · by_cases hq : query &&& tt.m_taskTags a ≠ 0
    · rw [if_pos h0, if_pos hq]
      dsimp only
      rw [bumpUp_apply, bitsList_count]
      by_cases hm : tag ∈ bitsList tt.tagBits (tt.m_taskTags a) <;>
        simp [hm, h0, hq]
    · rw [if_pos h0, if_neg hq]
      simp [hq]
  · rw [if_neg h0]
    simp [h0]

theorem enqueue_foldl_queued (tt : TaskTags) (query : Nat) (l : List Nat)
    (hl : l.Nodup) (exec : ExecutionContext) (t : Nat) :
    ((l.foldl (enqueueStep tt query) exec).m_taskQueuedCounts t) =
      if t ∈ l ∧ enqueueQualifies tt exec query t then 1
      else exec.m_taskQueuedCounts t := by
  induction l generalizing exec with
  | nil => simp
  | cons a l ih =>
    simp only [List.foldl_cons]
    rw [ih (List.Nodup.of_cons hl)]
    have hna : a ∉ l := (List.nodup_cons.mp hl).1
    by_cases hta : t = a
    · subst hta
      have hnotl : ¬ (t ∈ l ∧
          enqueueQualifies tt (enqueueStep tt query exec t) query t) :=
        fun h => hna h.1
      rw [if_neg hnotl, enqueueStep_queued]
      by_cases hq : enqueueQualifies tt exec query t
      · rw [if_pos ⟨rfl, hq⟩, if_pos ⟨List.mem_cons_self t l, hq⟩]
      · rw [if_neg (fun h => hq h.2), if_neg (fun h => hq h.2)]
    · have hstep : (enqueueStep tt query exec a).m_taskQueuedCounts t =
          exec.m_taskQueuedCounts t := by
        rw [enqueueStep_queued]
        exact if_neg (fun h => hta h.1)
      have hqiff := enqueueQualifies_congr tt exec
        (enqueueStep tt query exec a) query t hstep
      by_cases hmem : t ∈ l ∧ enqueueQualifies tt exec query t
      · rw [if_pos ⟨hmem.1, hqiff.mpr hmem.2⟩,
          if_pos ⟨List.mem_cons_of_mem a hmem.1, hmem.2⟩]
      · have h1 : ¬ (t ∈ l ∧
            enqueueQualifies tt (enqueueStep tt query exec a) query t) :=
          fun h => hmem ⟨h.1, hqiff.mp h.2⟩
        have h2 : ¬ (t ∈ a :: l ∧ enqueueQualifies tt exec query t) := by
          intro h
          rcases List.mem_cons.mp h.1 with he | hm2
          · exact hta he
          · exact hmem ⟨hm2, h.2⟩
        rw [if_neg h1, if_neg h2, hstep]

theorem enqueue_foldl_incomplete (tt : TaskTags) (query : Nat) (l : List Nat)
    (hl : l.Nodup) (exec : ExecutionContext) (tag : Nat) :
    ((l.foldl (enqueueStep tt query) exec).m_tagIncompleteCounts tag) =
      exec.m_tagIncompleteCounts tag +
        l.countP (fun t => decide (enqueueQualifies tt exec query t ∧
          tag ∈ bitsList tt.tagBits (tt.m_taskTags t))) := by
  induction l generalizing exec with
  | nil => simp
  | cons a l ih =>
    simp only [List.foldl_cons]
    rw [ih (List.Nodup.of_cons hl)]
    have hna : a ∉ l := (List.nodup_cons.mp hl).1
    rw [enqueueStep_incomplete]
    have hcount : l.countP (fun t => decide
          (enqueueQualifies tt (enqueueStep tt query exec a) query t ∧
            tag ∈ bitsList tt.tagBits (tt.m_taskTags t))) =
        l.countP (fun t => decide (enqueueQualifies tt exec query t ∧
          tag ∈ bitsList tt.tagBits (tt.m_taskTags t))) := by
      apply List.countP_congr
      intro x hx
      have hxa : x ≠ a := fun h => hna (h ▸ hx)
      have hstep : (enqueueStep tt query exec a).m_taskQueuedCounts x =
          exec.m_taskQueuedCounts x := by
        rw [enqueueStep_queued]
        exact if_neg (fun h => hxa h.1)
      simp only [decide_eq_true_eq]
      exact and_congr_left (fun _ =>
        enqueueQualifies_congr tt exec (enqueueStep tt query exec a) query x hstep)
    rw [hcount, List.countP_cons]
    by_cases hqa : enqueueQualifies tt exec query a ∧
        tag ∈ bitsList tt.tagBits (tt.m_taskTags a)
    · simp only [hqa, if_pos, decide_eq_true_eq, if_true]
      omega
    · simp only [hqa, decide_eq_true_eq, if_false]
      omega

theorem task_enqueue_queued (tt : TaskTags) (exec : ExecutionContext)
    (query t : Nat) :
    (task_enqueue tt exec query).m_taskQueuedCounts t =
      if t < tt.numTasks ∧ enqueueQualifies tt exec query t then 1
      else exec.m_taskQueuedCounts t := by
  unfold task_enqueue
  rw [enqueue_foldl_queued tt query _ (List.nodup_range tt.numTasks)]
  simp [List.mem_range]

theorem task_enqueue_running (tt : TaskTags) (exec : ExecutionContext)
    (query : Nat) :
    (task_enqueue tt exec query).m_tagRunningCounts = exec.m_tagRunningCounts := by
  unfold task_enqueue
  generalize List.range tt.numTasks = l
  induction l generalizing exec with
  | nil => rfl
  | cons a l ih =>
    simp only [List.foldl_cons]
    rw [ih, enqueueStep_running]

theorem task_enqueue_incomplete (tt : TaskTags) (exec : ExecutionContext)
    (query tag : Nat) :
    (task_enqueue tt exec query).m_tagIncompleteCounts tag =
      exec.m_tagIncompleteCounts tag +
        (List.range tt.numTasks).countP (fun t =>
          decide (enqueueQualifies tt exec query t ∧
            tag ∈ bitsList tt.tagBits (tt.m_taskTags t))) :=
  enqueue_foldl_incomplete tt query _ (List.nodup_range tt.numTasks) exec tag

/-! Pointwise characterization of `task_list_available`. -/

theorem task_list_available_testBit (tt : TaskTags) (exec : ExecutionContext)
    (tasksOut t : Nat) :
    ((task_list_available tt exec tasksOut).testBit t = true) ↔
      (tasksOut.testBit t = true ∨
        (t < tt.numTasks ∧ exec.m_taskQueuedCounts t ≠ 0 ∧
          compare_tags (allowedMask tt exec) (tt.m_taskTags t) = true)) := by
  unfold task_list_available
  simp only [← List.mem_range (n := tt.numTasks)]
  generalize List.range tt.numTasks = l
  induction l generalizing tasksOut with
  | nil => simp
  | cons a l ih =>
    simp only [List.foldl_cons]
    rw [ih]
    by_cases h0 : exec.m_taskQueuedCounts a = 0
    · simp only [h0, if_true, List.mem_cons]
      constructor
      · rintro (h | ⟨hm, h2⟩)
        · exact Or.inl h
        · exact Or.inr ⟨Or.inr hm, h2⟩
      · rintro (h | ⟨hm, h2⟩)
        · exact Or.inl h
        · rcases hm with he | hm
          · exact absurd (he ▸ h0) h2.1
          · exact Or.inr ⟨hm, h2⟩
    · simp only [h0, if_false]
      by_cases hc : compare_tags (allowedMask tt exec) (tt.m_taskTags a) = true
      · simp only [hc, if_true, Nat.testBit_lor, List.mem_cons]
        by_cases hta : t = a
        · subst hta
          simp [Nat.testBit_two_pow, h0, hc]
        · have : (2 ^ a).testBit t = false := by
            rw [Nat.testBit_two_pow]
            exact decide_eq_false (fun h => hta h.symm)
          rw [this]
          simp only [Bool.or_false]
          constructor
          · rintro (h | ⟨hm, h2⟩)
            · exact Or.inl h
            · exact Or.inr ⟨Or.inr hm, h2⟩
          · rintro (h | ⟨hm, h2⟩)
            · exact Or.inl h
            · rcases hm with he | hm
              · exact absurd he hta
              · exact Or.inr ⟨hm, h2⟩
      · simp only [hc, if_false, List.mem_cons]
        constructor
        · rintro (h | ⟨hm, h2⟩)
          · exact Or.inl h
          · exact Or.inr ⟨Or.inr hm, h2⟩
        · rintro (h | ⟨hm, h2⟩)
          · exact Or.inl h
          · rcases hm with he | hm
            · exact absurd (he ▸ h2.2) hc
            · exact Or.inr ⟨hm, h2⟩

/-! Pointwise characterization of `task_start` and `task_finish`. -/

theorem task_start_queued (tt : TaskTags) (exec : ExecutionContext) (task : Nat) :
    (task_start tt exec task).m_taskQueuedCounts = exec.m_taskQueuedCounts := rfl

theorem task_start_incomplete (tt : TaskTags) (exec : ExecutionContext)
    (task : Nat) :
    (task_start tt exec task).m_tagIncompleteCounts = exec.m_tagIncompleteCounts := rfl

theorem task_start_running (tt : TaskTags) (exec : ExecutionContext)
    (task tag : Nat) :
    (task_start tt exec task).m_tagRunningCounts tag =
      exec.m_tagRunningCounts tag +
        if tag ∈ bitsList tt.tagBits (tt.m_taskTags task) then 1 else 0 := by
  unfold task_start
  dsimp only
  rw [bumpUp_apply, bitsList_count]

theorem task_finish_queued (tt : TaskTags) (exec : ExecutionContext)
    (task t : Nat) :
    (task_finish tt exec task).m_taskQueuedCounts t =
      if t = task then exec.m_taskQueuedCounts task - 1
      else exec.m_taskQueuedCounts t := by
  unfold task_finish
  dsimp only
  unfold setAt
  split <;> rfl

theorem task_finish_running (tt : TaskTags) (exec : ExecutionContext)
    (task tag : Nat) :
    (task_finish tt exec task).m_tagRunningCounts tag =
      exec.m_tagRunningCounts tag -
        (if tag ∈ bitsList tt.tagBits (tt.m_taskTags task) then 1 else 0) := by
  unfold task_finish
  dsimp only
  rw [bumpDown_apply, bitsList_count]

theorem task_finish_incomplete (tt : TaskTags) (exec : ExecutionContext)
    (task tag : Nat) :
    (task_finish tt exec task).m_tagIncompleteCounts tag =
      exec.m_tagIncompleteCounts tag -
        (if tag ∈ bitsList tt.tagBits (tt.m_taskTags task) then 1 else 0) := by
  unfold task_finish
  dsimp only
  rw [bumpDown_apply, bitsList_count]

/-! Counting helpers for the execution-context invariants. -/

/-- Number of live tasks that carry `tag` and are queued. -/
def countQueuedTasks (tt : TaskTags) (q : Nat → Nat) (tag : Nat) : Nat :=
  (List.range tt.numTasks).countP
    (fun t => decide (0 < q t) && (tt.m_taskTags t).testBit tag)

/-- Number of live tasks that carry `tag` and are flagged as started. -/
def countStartedTasks (tt : TaskTags) (f : Nat → Bool) (tag : Nat) : Nat :=
  (List.range tt.numTasks).countP (fun t => f t && (tt.m_taskTags t).testBit tag)

/-- Well-formedness of a `TaskTags` description: every live task's packed
tag row fits in the packed row width (true of the C++ data by
construction, where a row is exactly `tag_ints_per_task` words). -/
def TaskTagsWF (tt : TaskTags) : Prop :=
  ∀ t, t < tt.numTasks → tt.m_taskTags t < 2 ^ tt.tagBits

theorem mem_bitsList_iff_testBit (tt : TaskTags) (hwf : TaskTagsWF tt)
    (t tag : Nat) (ht : t < tt.numTasks) :
    tag ∈ bitsList tt.tagBits (tt.m_taskTags t) ↔
      (tt.m_taskTags t).testBit tag = true := by
  rw [bitsList_mem]
  constructor
  · rintro ⟨_, h⟩
    exact h
  · intro h
    refine ⟨?_, h⟩
    by_contra hlt
    push_neg at hlt
    have hpow : tt.m_taskTags t < 2 ^ tag :=
      lt_of_lt_of_le (hwf t ht) (Nat.pow_le_pow_right (by norm_num) hlt)
    rw [Nat.testBit_lt_two_pow hpow] at h
    cases h

theorem countP_update (l : List Nat) (hl : l.Nodup) (p q : Nat → Bool)
    (u : Nat) (h : ∀ x, x ≠ u → p x = q x) :
    l.countP p + (if u ∈ l ∧ q u = true then 1 else 0) =
      l.countP q + (if u ∈ l ∧ p u = true then 1 else 0) := by
  induction l with
  | nil => simp
  | cons a l ih =>
    have hnd := List.nodup_cons.mp hl
    rw [List.countP_cons, List.countP_cons]
    by_cases hau : a = u
    · subst hau
      have hcong : l.countP p = l.countP q :=
        List.countP_congr (fun x hx => by
          rw [h x (fun he => hnd.1 (he ▸ hx))])
      have hmem : a ∈ a :: l := List.mem_cons_self a l
      simp only [hmem, true_and]
      rw [hcong]
      omega
    · have hmemiff : (u ∈ a :: l) = (u ∈ l) := by
        simp only [List.mem_cons]
        exact propext (or_iff_right (fun he => hau he.symm))
      simp only [hmemiff, h a hau]
      have := ih hnd.2
      by_cases hq2 : q a = true <;> simp only [hq2, if_true, if_false] <;> omega

theorem countP_or_split (l : List Nat) (p q : Nat → Bool)
    (h : ∀ x ∈ l, ¬(p x = true ∧ q x = true)) :
    l.countP (fun x => p x || q x) = l.countP p + l.countP q := by
  induction l with
  | nil => simp
  | cons a l ih =>
    rw [List.countP_cons, List.countP_cons, List.countP_cons,
      ih (fun x hx => h x (List.mem_cons_of_mem a hx))]
    have ha := h a (List.mem_cons_self a l)
    by_cases hp : p a = true
    · by_cases hq : q a = true
      · exact absurd ⟨hp, hq⟩ ha
      · have h1 : (p a || q a) = true := by rw [hp, Bool.true_or]
        rw [if_pos h1, if_pos hp, if_neg hq]
        omega
    · have hp' : p a = false := Bool.eq_false_iff.mpr hp
      by_cases hq : q a = true
      · have h1 : (p a || q a) = true := by rw [hq, Bool.or_true]
        rw [if_pos h1, if_neg hp, if_pos hq]
        omega
      · have h1 : ¬ ((p a || q a) = true) := by
          rw [hp', Bool.eq_false_iff.mpr hq]
          simp
        rw [if_neg h1, if_neg hp, if_neg hq]
        omega

/-! Scheduler runs.  A run starts from the all-zero `ExecutionContext` and
performs any sequence of `task_enqueue`, `task_start` and `task_finish`
calls.  The spec's protocol says `task_start` is called on a task returned
by `task_list_available` and `task_finish` on a started task; the ghost
flag map records which tasks are currently started (started and not yet
finished). -/

inductive SchedReach (tt : TaskTags) : ExecutionContext → (Nat → Bool) → Prop where
  | init : SchedReach tt execZero (fun _ => false)
  | enqueue {e f} (query : Nat) :
      SchedReach tt e f → SchedReach tt (task_enqueue tt e query) f
  | start {e f} (t : Nat) :
      SchedReach tt e f →
      (task_list_available tt e 0).testBit t = true →
      SchedReach tt (task_start tt e t) (setB f t true)
  | finish {e f} (t : Nat) :
      SchedReach tt e f → f t = true →
      SchedReach tt (task_finish tt e t) (setB f t false)

/-- Disciplined runs: in addition to the protocol of `SchedReach`, a task
that is already started is not started a second time before it finishes. -/
inductive SchedReachD (tt : TaskTags) : ExecutionContext → (Nat → Bool) → Prop where
  | init : SchedReachD tt execZero (fun _ => false)
  | enqueue {e f} (query : Nat) :
      SchedReachD tt e f → SchedReachD tt (task_enqueue tt e query) f
  | start {e f} (t : Nat) :
      SchedReachD tt e f →
      (task_list_available tt e 0).testBit t = true →
      f t = false →
      SchedReachD tt (task_start tt e t) (setB f t true)
  | finish {e f} (t : Nat) :
      SchedReachD tt e f → f t = true →
      SchedReachD tt (task_finish tt e t) (setB f t false)

/-- The part of the execution-context invariant that holds along every
run, disciplined or not: queued counts are 0 or 1, a started task is a
queued live task, and each tag's incomplete count equals the number of
queued tasks carrying the tag. -/
structure PartialInv (tt : TaskTags) (e : ExecutionContext) (f : Nat → Bool) :
    Prop where
  queued_le_one : ∀ t, e.m_taskQueuedCounts t ≤ 1
  started_queued : ∀ t, f t = true →
    e.m_taskQueuedCounts t = 1 ∧ t < tt.numTasks
  incomplete_eq : ∀ tag,
    e.m_tagIncompleteCounts tag = countQueuedTasks tt e.m_taskQueuedCounts tag

theorem countP_flip_up (l : List Nat) (hl : l.Nodup) (p q : Nat → Bool)
    (u : Nat) (h : ∀ x, x ≠ u → p x = q x) (hu : u ∈ l)
    (hpu : p u = false) (hqu : q u = true) :
    l.countP q = l.countP p + 1 := by
  have hh := countP_update l hl p q u h
  rw [if_pos ⟨hu, hqu⟩, if_neg (fun hc => by
    rw [hpu] at hc
    exact Bool.false_ne_true hc.2)] at hh
  omega

theorem countP_flip_down (l : List Nat) (hl : l.Nodup) (p q : Nat → Bool)
    (u : Nat) (h : ∀ x, x ≠ u → p x = q x) (hu : u ∈ l)
    (hpu : p u = true) (hqu : q u = false) :
    l.countP q + 1 = l.countP p := by
  have hh := countP_update l hl p q u h
  rw [if_neg (fun hc => by
    rw [hqu] at hc
    exact Bool.false_ne_true hc.2), if_pos ⟨hu, hpu⟩] at hh
  omega

theorem partialInv_init (tt : TaskTags) :
    PartialInv tt execZero (fun _ => false) := by
  refine ⟨fun t => ?_, fun t h => ?_, fun tag => ?_⟩
  · exact Nat.zero_le 1
  · cases h
  · unfold countQueuedTasks execZero
    rw [List.countP_eq_zero.mpr]
    intro x hx
    simp

theorem partialInv_enqueue (tt : TaskTags) (hwf : TaskTagsWF tt)
    {e : ExecutionContext} {f : Nat → Bool} (inv : PartialInv tt e f)
    (query : Nat) : PartialInv tt (task_enqueue tt e query) f := by
  refine ⟨fun t => ?_, fun t ht => ?_, fun tag => ?_⟩
  · rw [task_enqueue_queued]
    split
    · exact le_refl 1
    · exact inv.queued_le_one t
  · obtain ⟨h1, h2⟩ := inv.started_queued t ht
    refine ⟨?_, h2⟩
    rw [task_enqueue_queued]
    split
    · rfl
    · exact h1
  · rw [task_enqueue_incomplete, inv.incomplete_eq tag]
    unfold countQueuedTasks
    rw [← countP_or_split]
    · symm
      apply List.countP_congr
      intro x hx
      have hxlt : x < tt.numTasks := List.mem_range.mp hx
      simp only [Bool.or_eq_true, Bool.and_eq_true, decide_eq_true_eq]
      constructor
      · rintro ⟨h1, h2⟩
        rw [task_enqueue_queued] at h1
        by_cases hcond : x < tt.numTasks ∧ enqueueQualifies tt e query x
        · exact Or.inr ⟨hcond.2,
            (mem_bitsList_iff_testBit tt hwf x tag hxlt).mpr h2⟩
        · rw [if_neg hcond] at h1
          exact Or.inl ⟨h1, h2⟩
      · rintro (⟨h1, h2⟩ | ⟨hqual, hmem⟩)
        · refine ⟨?_, h2⟩
          rw [task_enqueue_queued]
          split
          · exact Nat.zero_lt_one
          · exact h1
        · refine ⟨?_, (mem_bitsList_iff_testBit tt hwf x tag hxlt).mp hmem⟩
          rw [task_enqueue_queued, if_pos ⟨hxlt, hqual⟩]
          exact Nat.zero_lt_one
    · intro x hx hcon
      obtain ⟨h1, h2⟩ := hcon
      rw [Bool.and_eq_true, decide_eq_true_eq] at h1
      rw [decide_eq_true_eq] at h2
      have hq' : e.m_taskQueuedCounts x = 0 ∧ query &&& tt.m_taskTags x ≠ 0 := h2.1
      have := h1.1
      omega

theorem partialInv_start (tt : TaskTags) {e : ExecutionContext}
    {f : Nat → Bool} (inv : PartialInv tt e f) (t : Nat)
    (havail : (task_list_available tt e 0).testBit t = true) :
    PartialInv tt (task_start tt e t) (setB f t true) := by
  have hav := (task_list_available_testBit tt e 0 t).mp havail
  rw [Nat.zero_testBit] at hav
  rcases hav with h | ⟨hlt, hq, _⟩
  · cases h
  refine ⟨fun u => ?_, fun u hu => ?_, fun tag => ?_⟩
  · rw [task_start_queued]
    exact inv.queued_le_one u
  · rw [task_start_queued]
    by_cases hut : u = t
    · subst hut
      have := inv.queued_le_one u
      exact ⟨by omega, hlt⟩
    · have : f u = true := by
        rw [setB, if_neg hut] at hu
        exact hu
      exact inv.started_queued u this
  · rw [task_start_incomplete, task_start_queued]
    exact inv.incomplete_eq tag

theorem partialInv_finish (tt : TaskTags) (hwf : TaskTagsWF tt)
    {e : ExecutionContext} {f : Nat → Bool} (inv : PartialInv tt e f)
    (t : Nat) (hf : f t = true) :
    PartialInv tt (task_finish tt e t) (setB f t false) := by
  obtain ⟨hq1, hlt⟩ := inv.started_queued t hf
  refine ⟨fun u => ?_, fun u hu => ?_, fun tag => ?_⟩
  · rw [task_finish_queued]
    split
    · omega
    · exact inv.queued_le_one u
  · by_cases hut : u = t
    · subst hut
      rw [setB, if_pos rfl] at hu
      cases hu
    · rw [setB, if_neg hut] at hu
      obtain ⟨h1, h2⟩ := inv.started_queued u hu
      rw [task_finish_queued, if_neg hut]
      exact ⟨h1, h2⟩
  · rw [task_finish_incomplete, inv.incomplete_eq tag]
    unfold countQueuedTasks
    have hmemr : t ∈ List.range tt.numTasks := List.mem_range.mpr hlt
    have hnewt : (task_finish tt e t).m_taskQueuedCounts t = 0 := by
      rw [task_finish_queued, if_pos rfl, hq1]
    have hcongx : ∀ x, x ≠ t →
        (decide (0 < e.m_taskQueuedCounts x) && (tt.m_taskTags x).testBit tag) =
          (decide (0 < (task_finish tt e t).m_taskQueuedCounts x) &&
            (tt.m_taskTags x).testBit tag) := by
      intro x hx
      rw [task_finish_queued, if_neg hx]
    by_cases hbit : (tt.m_taskTags t).testBit tag = true
    · have hmemb : tag ∈ bitsList tt.tagBits (tt.m_taskTags t) :=
        (mem_bitsList_iff_testBit tt hwf t tag hlt).mpr hbit
      rw [if_pos hmemb]
      have hflip := countP_flip_down (List.range tt.numTasks)
        (List.nodup_range tt.numTasks)
        (fun x => decide (0 < e.m_taskQueuedCounts x) &&
          (tt.m_taskTags x).testBit tag)
        (fun x => decide (0 < (task_finish tt e t).m_taskQueuedCounts x) &&
          (tt.m_taskTags x).testBit tag)
        t hcongx hmemr
        (by simp [hq1, hbit])
        (by simp [hnewt])
      omega
    · have hmemb : tag ∉ bitsList tt.tagBits (tt.m_taskTags t) := by
        rw [mem_bitsList_iff_testBit tt hwf t tag hlt]
        exact hbit
      rw [if_neg hmemb]
      have hbitf : (tt.m_taskTags t).testBit tag = false :=
        Bool.eq_false_iff.mpr hbit
      have hcong : (List.range tt.numTasks).countP
          (fun x => decide (0 < (task_finish tt e t).m_taskQueuedCounts x) &&
            (tt.m_taskTags x).testBit tag) =
          (List.range tt.numTasks).countP
            (fun x => decide (0 < e.m_taskQueuedCounts x) &&
              (tt.m_taskTags x).testBit tag) := by
        apply List.countP_congr
        intro x hx
        by_cases hxt : x = t
        · subst hxt
          simp [hbitf]
        · rw [← hcongx x hxt]
      rw [hcong]
      omega

theorem schedReach_partialInv (tt : TaskTags) (hwf : TaskTagsWF tt)
    {e : ExecutionContext} {f : Nat → Bool} (hr : SchedReach tt e f) :
    PartialInv tt e f := by
  induction hr with
  | init => exact partialInv_init tt
  | enqueue query _ ih => exact partialInv_enqueue tt hwf ih query
  | start t _ havail ih => exact partialInv_start tt ih t havail
  | finish t _ hf ih => exact partialInv_finish tt hwf ih t hf

theorem setB_self (f : Nat → Bool) (i : Nat) (v : Bool) : setB f i v i = v := by
  simp [setB]

theorem setB_ne (f : Nat → Bool) (i : Nat) (v : Bool) (j : Nat) (h : j ≠ i) :
    setB f i v j = f j := by
  simp [setB, h]

/-- The full execution-context invariant of disciplined runs: additionally,
each tag's running count equals the number of started tasks carrying the
tag. -/
structure FullInv (tt : TaskTags) (e : ExecutionContext) (f : Nat → Bool)
    extends PartialInv tt e f : Prop where
  running_eq : ∀ tag, e.m_tagRunningCounts tag = countStartedTasks tt f tag

theorem fullInv_init (tt : TaskTags) : FullInv tt execZero (fun _ => false) := by
  refine ⟨partialInv_init tt, fun tag => ?_⟩
  unfold countStartedTasks execZero
  rw [List.countP_eq_zero.mpr]
  intro x hx
  simp

theorem fullInv_enqueue (tt : TaskTags) (hwf : TaskTagsWF tt)
    {e : ExecutionContext} {f : Nat → Bool} (inv : FullInv tt e f)
    (query : Nat) : FullInv tt (task_enqueue tt e query) f := by
  refine ⟨partialInv_enqueue tt hwf inv.toPartialInv query, fun tag => ?_⟩
  rw [task_enqueue_running]
  exact inv.running_eq tag

theorem fullInv_start (tt : TaskTags) (hwf : TaskTagsWF tt)
    {e : ExecutionContext} {f : Nat → Bool} (inv : FullInv tt e f) (t : Nat)
    (havail : (task_list_available tt e 0).testBit t = true)
    (hff : f t = false) :
    FullInv tt (task_start tt e t) (setB f t true) := by
  have hav := (task_list_available_testBit tt e 0 t).mp havail
  rw [Nat.zero_testBit] at hav
  rcases hav with h | ⟨hlt, hq, _⟩
  · cases h
  refine ⟨partialInv_start tt inv.toPartialInv t havail, fun tag => ?_⟩
  rw [task_start_running, inv.running_eq tag]
  unfold countStartedTasks
  have hcongx : ∀ x, x ≠ t →
      (f x && (tt.m_taskTags x).testBit tag) =
        (setB f t true x && (tt.m_taskTags x).testBit tag) := by
    intro x hx
    rw [setB_ne f t true x hx]
  by_cases hbit : (tt.m_taskTags t).testBit tag = true
  · have hmemb : tag ∈ bitsList tt.tagBits (tt.m_taskTags t) :=
      (mem_bitsList_iff_testBit tt hwf t tag hlt).mpr hbit
    rw [if_pos hmemb]
    have hflip := countP_flip_up (List.range tt.numTasks)
      (List.nodup_range tt.numTasks)
      (fun x => f x && (tt.m_taskTags x).testBit tag)
      (fun x => setB f t true x && (tt.m_taskTags x).testBit tag)
      t hcongx (List.mem_range.mpr hlt)
      (by simp [hff])
      (by simp [setB_self, hbit])
    omega
  · have hmemb : tag ∉ bitsList tt.tagBits (tt.m_taskTags t) := by
      rw [mem_bitsList_iff_testBit tt hwf t tag hlt]
      exact hbit
    rw [if_neg hmemb]
    have hbitf : (tt.m_taskTags t).testBit tag = false :=
      Bool.eq_false_iff.mpr hbit
    have hcong : (List.range tt.numTasks).countP
        (fun x => setB f t true x && (tt.m_taskTags x).testBit tag) =
        (List.range tt.numTasks).countP
          (fun x => f x && (tt.m_taskTags x).testBit tag) := by
      apply List.countP_congr
      intro x hx
      by_cases hxt : x = t
      · subst hxt
        simp [hbitf]
      · rw [← hcongx x hxt]
    rw [hcong]
    omega

theorem fullInv_finish (tt : TaskTags) (hwf : TaskTagsWF tt)
    {e : ExecutionContext} {f : Nat → Bool} (inv : FullInv tt e f) (t : Nat)
    (hf : f t = true) :
    FullInv tt (task_finish tt e t) (setB f t false) := by
  obtain ⟨hq1, hlt⟩ := inv.started_queued t hf
  refine ⟨partialInv_finish tt hwf inv.toPartialInv t hf, fun tag => ?_⟩
  rw [task_finish_running, inv.running_eq tag]
  unfold countStartedTasks
  have hcongx : ∀ x, x ≠ t →
      (f x && (tt.m_taskTags x).testBit tag) =
        (setB f t false x && (tt.m_taskTags x).testBit tag) := by
    intro x hx
    rw [setB_ne f t false x hx]
  by_cases hbit : (tt.m_taskTags t).testBit tag = true
  · have hmemb : tag ∈ bitsList tt.tagBits (tt.m_taskTags t) :=
      (mem_bitsList_iff_testBit tt hwf t tag hlt).mpr hbit
    rw [if_pos hmemb]
    have hflip := countP_flip_down (List.range tt.numTasks)
      (List.nodup_range tt.numTasks)
      (fun x => f x && (tt.m_taskTags x).testBit tag)
      (fun x => setB f t false x && (tt.m_taskTags x).testBit tag)
      t hcongx (List.mem_range.mpr hlt)
      (by simp [hf, hbit])
      (by simp [setB_self])
    omega
  · have hmemb : tag ∉ bitsList tt.tagBits (tt.m_taskTags t) := by
      rw [mem_bitsList_iff_testBit tt hwf t tag hlt]
      exact hbit
    rw [if_neg hmemb]
    have hbitf : (tt.m_taskTags t).testBit tag = false :=
      Bool.eq_false_iff.mpr hbit
    have hcong : (List.range tt.numTasks).countP
        (fun x => setB f t false x && (tt.m_taskTags x).testBit tag) =
        (List.range tt.numTasks).countP
          (fun x => f x && (tt.m_taskTags x).testBit tag) := by
      apply List.countP_congr
      intro x hx
      by_cases hxt : x = t
      · subst hxt
        simp [hbitf]
      · rw [← hcongx x hxt]
    rw [hcong]
    omega

theorem schedReachD_fullInv (tt : TaskTags) (hwf : TaskTagsWF tt)
    {e : ExecutionContext} {f : Nat → Bool} (hr : SchedReachD tt e f) :
    FullInv tt e f := by
  induction hr with
  | init => exact fullInv_init tt
  | enqueue query _ ih => exact fullInv_enqueue tt hwf ih query
  | start t _ havail hff ih => exact fullInv_start tt hwf ih t havail hff
  | finish t _ hf ih => exact fullInv_finish tt hwf ih t hf

theorem fullInv_running_le_incomplete (tt : TaskTags)
    {e : ExecutionContext} {f : Nat → Bool} (inv : FullInv tt e f) (tag : Nat) :
    e.m_tagRunningCounts tag ≤ e.m_tagIncompleteCounts tag := by
  rw [inv.running_eq tag, inv.incomplete_eq tag]
  unfold countStartedTasks countQueuedTasks
  apply List.countP_mono_left
  intro x hx hpx
  rw [Bool.and_eq_true] at hpx
  obtain ⟨h1, h2⟩ := hpx
  have hq := (inv.started_queued x h1).1
  rw [Bool.and_eq_true]
  exact ⟨decide_eq_true (by omega), h2⟩

/-! Auxiliary facts about dependency rows needed by the claim theorems. -/

theorem tagSatisfied_iff (tt : TaskTags) (exec : ExecutionContext) (k : Nat) :
    tagSatisfied tt exec k = true ↔
      ∀ d ∈ declaredDeps tt k, exec.m_tagIncompleteCounts d = 0 := by
  unfold tagSatisfied
  simp [List.all_eq_true]

theorem declaredDeps_out_of_range (tt : TaskTags)
    (hdeps : tt.m_tagDepends.length ≤ tt.numTags * tt.m_tagDependsPerTag)
    (tag : Nat) (h : tt.numTags ≤ tag) : declaredDeps tt tag = [] := by
  unfold declaredDeps depsRow
  have hlen : tt.m_tagDepends.length ≤ tag * tt.m_tagDependsPerTag :=
    le_trans hdeps (Nat.mul_le_mul_right _ h)
  rw [List.drop_eq_nil_of_le hlen]
  simp

/-! Concrete scheduler descriptions used in the end-to-end scenarios of the
spec (§8): `ttSingle` has one tag A carried by the single task T0 and no
dependencies; `ttDep` has tags A = 0 and B = 1 where B depends on A, task
T0 carrying A and task T1 carrying B. -/

def ttSingle : TaskTags :=
  { numTags := 1, numTasks := 1, tagBits := 64
    m_taskTags := fun t => if t = 0 then 1 else 0
    m_tagDepends := [], m_tagDependsPerTag := 1 }

def ttDep : TaskTags :=
  { numTags := 2, numTasks := 2, tagBits := 64
    m_taskTags := fun t => if t = 0 then 1 else if t = 1 then 2 else 0
    m_tagDepends := [none, some 0], m_tagDependsPerTag := 1 }

theorem ttSingle_wf : TaskTagsWF ttSingle := by
  unfold TaskTagsWF ttSingle
  decide

theorem ttDep_wf : TaskTagsWF ttDep := by
  unfold TaskTagsWF ttDep
  decide

/-- C1: a task's bit is set in the output of `task_list_available` (over a
zeroed output bitset) if and only if the task's queued count is positive
and, for every tag the task carries, every directly declared dependency of
that tag has incomplete count zero. -/
theorem C1_list_available_iff (tt : TaskTags) (exec : ExecutionContext)
    (t : Nat) (hwf : TaskTagsWF tt)
    (hdeps : tt.m_tagDepends.length ≤ tt.numTags * tt.m_tagDependsPerTag)
    (ht : t < tt.numTasks) :
    (task_list_available tt exec 0).testBit t = true ↔
      (0 < exec.m_taskQueuedCounts t ∧
        ∀ tag, (tt.m_taskTags t).testBit tag = true →
          ∀ d ∈ declaredDeps tt tag, exec.m_tagIncompleteCounts d = 0) := by
  rw [task_list_available_testBit, Nat.zero_testBit]
  simp only [Bool.false_eq_true, false_or]
  constructor
  · rintro ⟨_, hq, hc⟩
    refine ⟨Nat.pos_of_ne_zero hq, ?_⟩
    intro tag hbit d hd
    have hm := (compare_tags_iff _ _).mp hc tag hbit
    rw [allowedMask_testBit] at hm
    by_cases htag : tag < tt.numTags
    · exact (tagSatisfied_iff tt exec tag).mp (hm.2 htag) d hd
    · rw [declaredDeps_out_of_range tt hdeps tag (le_of_not_lt htag)] at hd
      cases hd
  · rintro ⟨hq, hdepsok⟩
    refine ⟨ht, Nat.pos_iff_ne_zero.mp hq, ?_⟩
    rw [compare_tags_iff]
    intro i hbit
    rw [allowedMask_testBit]
    have hlt2 : i < tt.tagBits := by
      by_contra hcon
      push_neg at hcon
      have hpow : tt.m_taskTags t < 2 ^ i :=
        lt_of_lt_of_le (hwf t ht) (Nat.pow_le_pow_right (by norm_num) hcon)
      rw [Nat.testBit_lt_two_pow hpow] at hbit
      cases hbit
    exact ⟨hlt2, fun _ => (tagSatisfied_iff tt exec i).mpr (hdepsok i hbit)⟩

/-- Witness for C1: in the two-tag scenario after `enqueue({A, B})`, the
characterization applies to task T0 with every hypothesis discharged. -/
theorem C1_witness :
    ((task_list_available ttDep (task_enqueue ttDep execZero 3) 0).testBit 0
        = true ↔
      (0 < (task_enqueue ttDep execZero 3).m_taskQueuedCounts 0 ∧
        ∀ tag, (ttDep.m_taskTags 0).testBit tag = true →
          ∀ d ∈ declaredDeps ttDep tag,
            (task_enqueue ttDep execZero 3).m_tagIncompleteCounts d = 0)) :=
  C1_list_available_iff ttDep (task_enqueue ttDep execZero 3) 0 ttDep_wf
    (by norm_num [ttDep]) (by norm_num [ttDep])

/-- The state reached in the one-tag one-task scenario by
`enqueue({A})`, `start(T0)`, `start(T0)`: T0 is still listed available
after the first start (availability checks only queued counts and
incomplete dependencies), so a second `task_start` is permitted by the
claim's protocol. -/
def execDoubleStart : ExecutionContext :=
  task_start ttSingle (task_start ttSingle (task_enqueue ttSingle execZero 1) 0) 0

/-- Counterexample to C2: the double-start state is reachable in the sense
of the claim (each `task_start` is on a task returned available, each
`task_finish` on a started task), yet `running[A] = 2 > 1 = incomplete[A]`. -/
theorem C2_counterexample :
    SchedReach ttSingle execDoubleStart
        (setB (setB (fun _ => false) 0 true) 0 true) ∧
      ¬ (execDoubleStart.m_tagRunningCounts 0 ≤
          execDoubleStart.m_tagIncompleteCounts 0) := by
  constructor
  · exact SchedReach.start 0
      (SchedReach.start 0 (SchedReach.enqueue 1 SchedReach.init) (by decide))
      (by decide)
  · decide

/-- C2 (amended): along every run in which `task_start` is only invoked on
an available task that is not currently started, every tag's running count
is at most its incomplete count, and its incomplete count equals the
number of live tasks that carry the tag and have positive queued count. -/
theorem C2_amended_invariants (tt : TaskTags) (hwf : TaskTagsWF tt)
    {e : ExecutionContext} {f : Nat → Bool} (hr : SchedReachD tt e f)
    (tag : Nat) :
    e.m_tagRunningCounts tag ≤ e.m_tagIncompleteCounts tag ∧
      e.m_tagIncompleteCounts tag =
        countQueuedTasks tt e.m_taskQueuedCounts tag := by
  have inv := schedReachD_fullInv tt hwf hr
  exact ⟨fullInv_running_le_incomplete tt inv tag, inv.incomplete_eq tag⟩

/-- Witness for C2: the amended invariant applied to the disciplined run
`enqueue({A})` of the one-tag scenario, at tag A. -/
theorem C2_witness :
    (task_enqueue ttSingle execZero 1).m_tagRunningCounts 0 ≤
        (task_enqueue ttSingle execZero 1).m_tagIncompleteCounts 0 ∧
      (task_enqueue ttSingle execZero 1).m_tagIncompleteCounts 0 =
        countQueuedTasks ttSingle
          (task_enqueue ttSingle execZero 1).m_taskQueuedCounts 0 :=
  C2_amended_invariants ttSingle ttSingle_wf
    (SchedReachD.enqueue 1 SchedReachD.init) 0

/-- C3: `task_enqueue` sets the queued count to 1 exactly for the live
tasks that were unqueued and whose tag bitset meets the query, leaves
every other queued count and all running counts unchanged, and adds to
each tag's incomplete count the number of newly enqueued tasks carrying
that tag; enqueueing the same query twice in the one-tag one-task
scenario leaves `incomplete[A] = 1` and `queued[T0] = 1`. -/
theorem C3_task_enqueue_effect (tt : TaskTags) (exec : ExecutionContext)
    (query : Nat) :
    (∀ t, (task_enqueue tt exec query).m_taskQueuedCounts t =
        if t < tt.numTasks ∧ exec.m_taskQueuedCounts t = 0 ∧
            query &&& tt.m_taskTags t ≠ 0
        then 1 else exec.m_taskQueuedCounts t) ∧
    ((task_enqueue tt exec query).m_tagRunningCounts = exec.m_tagRunningCounts) ∧
    (∀ tag, tag < tt.tagBits →
      (task_enqueue tt exec query).m_tagIncompleteCounts tag =
        exec.m_tagIncompleteCounts tag +
          (List.range tt.numTasks).countP (fun t =>
            decide (exec.m_taskQueuedCounts t = 0 ∧
              query &&& tt.m_taskTags t ≠ 0 ∧
              (tt.m_taskTags t).testBit tag = true))) ∧
    ((task_enqueue ttSingle (task_enqueue ttSingle execZero 1) 1).m_tagIncompleteCounts 0 = 1 ∧
      (task_enqueue ttSingle (task_enqueue ttSingle execZero 1) 1).m_taskQueuedCounts 0 = 1) := by
  refine ⟨fun t => ?_, task_enqueue_running tt exec query,
    fun tag htag => ?_, by decide, by decide⟩
  · rw [task_enqueue_queued]
    rfl
  · rw [task_enqueue_incomplete]
    congr 1
    apply List.countP_congr
    intro x hx
    have hxlt : x < tt.numTasks := List.mem_range.mp hx
    simp only [decide_eq_true_eq]
    constructor
    · rintro ⟨hq, hmem⟩
      have hq' : exec.m_taskQueuedCounts x = 0 ∧ query &&& tt.m_taskTags x ≠ 0 := hq
      exact ⟨hq'.1, hq'.2, (bitsList_mem tt.tagBits (tt.m_taskTags x) tag).mp hmem |>.2⟩
    · rintro ⟨h1, h2, h3⟩
      exact ⟨⟨h1, h2⟩, (bitsList_mem tt.tagBits (tt.m_taskTags x) tag).mpr ⟨htag, h3⟩⟩

/-- Witness for C3: the characterization applied to the one-tag scenario's
second enqueue, with tag A below the packed row width. -/
theorem C3_witness :
    ((task_enqueue ttSingle (task_enqueue ttSingle execZero 1) 1).m_tagIncompleteCounts 0 =
      (task_enqueue ttSingle execZero 1).m_tagIncompleteCounts 0 +
        (List.range ttSingle.numTasks).countP (fun t =>
          decide ((task_enqueue ttSingle execZero 1).m_taskQueuedCounts t = 0 ∧
            (1 : Nat) &&& ttSingle.m_taskTags t ≠ 0 ∧
            (ttSingle.m_taskTags t).testBit 0 = true))) :=
  ((C3_task_enqueue_effect ttSingle (task_enqueue ttSingle execZero 1) 1).2.2.1)
    0 (by norm_num [ttSingle])

/-- C4: if tag `T2` is a directly declared dependency of tag `T1`, then in
every reachable scheduler state in which some live task carrying `T2` is
still enqueued (queued and not yet finished), no task carrying `T1` is
present in the `task_list_available` result; in the two-tag scenario, the
first `list_available` after `enqueue({A, B})` returns exactly `{T0}` and
after `start(T0)`, `finish(T0)` it returns exactly `{T1}`. -/
theorem C4_dependency_ordering (tt : TaskTags) (hwf : TaskTagsWF tt)
    (hdeps : tt.m_tagDepends.length ≤ tt.numTags * tt.m_tagDependsPerTag)
    {e : ExecutionContext} {f : Nat → Bool} (hr : SchedReach tt e f)
    (T1 T2 u : Nat) (hT2 : T2 ∈ declaredDeps tt T1)
    (hu : (tt.m_taskTags u).testBit T1 = true)
    (hv : ∃ v, v < tt.numTasks ∧ 0 < e.m_taskQueuedCounts v ∧
      (tt.m_taskTags v).testBit T2 = true) :
    (task_list_available tt e 0).testBit u = false ∧
      task_list_available ttDep (task_enqueue ttDep execZero 3) 0 = 1 ∧
      task_list_available ttDep
        (task_finish ttDep
          (task_start ttDep (task_enqueue ttDep execZero 3) 0) 0) 0 = 2 := by
  refine ⟨?_, by decide, by decide⟩
  have inv := schedReach_partialInv tt hwf hr
  obtain ⟨v, hvlt, hvq, hvbit⟩ := hv
  have hT1lt : T1 < tt.numTags := by
    by_contra hcon
    push_neg at hcon
    rw [declaredDeps_out_of_range tt hdeps T1 hcon] at hT2
    cases hT2
  have hinc : 0 < e.m_tagIncompleteCounts T2 := by
    rw [inv.incomplete_eq T2]
    unfold countQueuedTasks
    rw [List.countP_pos_iff]
    exact ⟨v, List.mem_range.mpr hvlt,
      by rw [Bool.and_eq_true]; exact ⟨decide_eq_true hvq, hvbit⟩⟩
  by_contra hbit
  rw [Bool.not_eq_false] at hbit
  have hav := (task_list_available_testBit tt e 0 u).mp hbit
  rw [Nat.zero_testBit] at hav
  rcases hav with h | ⟨hult, hq, hc⟩
  · exact Bool.false_ne_true h
  have hm := (compare_tags_iff _ _).mp hc T1 hu
  rw [allowedMask_testBit] at hm
  have hsat := hm.2 hT1lt
  have := (tagSatisfied_iff tt e T1).mp hsat T2 hT2
  omega

/-- Witness for C4: in the two-tag scenario after `enqueue({A, B})`, task
T1 (carrying B, which depends on A) is not listed available while T0
(carrying A) is still queued. -/
theorem C4_witness :
    (task_list_available ttDep (task_enqueue ttDep execZero 3) 0).testBit 1 = false ∧
      task_list_available ttDep (task_enqueue ttDep execZero 3) 0 = 1 ∧
      task_list_available ttDep
        (task_finish ttDep
          (task_start ttDep (task_enqueue ttDep execZero 3) 0) 0) 0 = 2 :=
  C4_dependency_ordering ttDep ttDep_wf (by norm_num [ttDep])
    (SchedReach.enqueue 3 SchedReach.init) 1 0 1
    (by decide) (by decide)
    ⟨0, by norm_num [ttDep], by decide, by decide⟩

/-! Embedding of the subdivision structures of
`src/planet-a/SubdivSkeleton.h`.  Ids (`SkVrtxId`, `SkTriId`, ...) are
`uint32_t`-backed enums embedded as `Nat`; `std::vector` contents are
embedded as `List`s together with an explicit capacity for the registry's
`m_exists` vector; the `std::unordered_map` is embedded as an association
list (insertion order is irrelevant because a key is only ever inserted
once). -/

/-- Error kind of §7 of the spec for a full registry with auto-resize
disabled (the C++ throws `std::runtime_error`). -/
inductive RegistryError where
  | CapacityExceeded
deriving DecidableEq

/-- Embedding of `planeta::IdRegistry`: the dense liveness vector
`m_exists`, the freed stack `m_deleted` (most recently pushed element at
the head of the list, matching `back()` of the C++ vector), and the
capacity of `m_exists` as set by `reserve`. -/
structure IdRegistry where
  m_exists : List Bool
  m_deleted : List Nat
  m_capacity : Nat
deriving DecidableEq

/-- The registry produced by the capacity constructor
`IdRegistry(size_t capacity)`, which reserves the given capacity. -/
def IdRegistry.mkReserved (capacity : Nat) : IdRegistry :=
  { m_exists := [], m_deleted := [], m_capacity := capacity }

/-- Embedding of `IdRegistry<ID_T, false>::create()`: the
`NO_AUTO_RESIZE` branch is compiled out (`if constexpr`), so a freed slot
is reused if available and otherwise a new slot is appended (growing the
capacity as `push_back` does when size equals capacity). -/
def IdRegistry.create (r : IdRegistry) : Nat × IdRegistry :=
  match r.m_deleted with
  | id :: rest =>
      (id, { r with m_exists := r.m_exists.set id true, m_deleted := rest })
  | [] =>
      (r.m_exists.length,
        { r with
          m_exists := r.m_exists ++ [true]
          m_capacity := max r.m_capacity (r.m_exists.length + 1) })

/-- Embedding of `IdRegistry<ID_T, true>::create()`: a freed slot is
reused if available; otherwise, if the dense array is at capacity the call
throws (`CapacityExceeded`), else a new slot is appended. -/
def IdRegistry.createNoResize (r : IdRegistry) :
    Except RegistryError (Nat × IdRegistry) :=
  match r.m_deleted with
  | id :: rest =>
      .ok (id, { r with m_exists := r.m_exists.set id true, m_deleted := rest })
  | [] =>
      if r.m_exists.length = r.m_capacity then .error .CapacityExceeded
      else
        .ok (r.m_exists.length,
          { r with
            m_exists := r.m_exists ++ [true]
            m_capacity := max r.m_capacity (r.m_exists.length + 1) })

/-- Modelled from the spec: `IdRegistry::remove` is declared in
`SubdivSkeleton.h` but its body is not among the sources; §4.1 of the spec
says removal sets the liveness bit false and pushes the slot onto the
freed stack. -/
def IdRegistry.remove (r : IdRegistry) (id : Nat) : IdRegistry :=
  { r with m_exists := r.m_exists.set id false, m_deleted := id :: r.m_deleted }

/-- Resize a `Nat`-valued vector to `n` elements, value-initializing new
elements to 0 (the embedding of `std::vector::resize`). -/
def listResize (l : List Nat) (n : Nat) : List Nat :=
  l.take n ++ List.replicate (n - l.length) 0

/-- Embedding of `SubdivIdTree::hash_id_combination`: the larger index in
the low 32 bits, the smaller shifted into the high bits
(`sizeof(id_int_t) * 8 = 32` for the `uint32_t`-backed ids). -/
def hash_id_combination (a b : Nat) : Nat :=
  let ls := if a > b then a else b
  let ms := if a > b then b else a
  ls ||| (ms <<< 32)

/-- Embedding of `planeta::SubdivIdTree`: the underlying registry, the
pair-combination map `m_parentsToId`, the parent back-references
`m_idToParents` and the `uint8_t` child counts `m_idChildCount`. -/
structure SubdivIdTree where
  reg : IdRegistry
  m_parentsToId : List (Nat × Nat)
  m_idToParents : List Nat
  m_idChildCount : List Nat
deriving DecidableEq

/-- The empty tree (default-constructed members). -/
def SubdivIdTree.empty : SubdivIdTree :=
  { reg := IdRegistry.mkReserved 0
    m_parentsToId := []
    m_idToParents := []
    m_idChildCount := [] }

/-- Embedding of `SubdivIdTree::create_root`: allocate an id from the
registry, then resize the child-count vector to `size_required()` and
zero the new entry. -/
def SubdivIdTree.create_root (t : SubdivIdTree) : Nat × SubdivIdTree :=
  let (id, reg') := t.reg.create
  (id, { t with
    reg := reg'
    m_idChildCount := (listResize t.m_idChildCount reg'.m_exists.length).set id 0 })

/-- Embedding of `SubdivIdTree::create_or_get`: look up the canonicalized
combination; if absent, allocate a child via `create_root`, record its
parents and increment each parent's `uint8_t` child count (wrapping modulo
256 as the C++ increment does). -/
def SubdivIdTree.create_or_get (t : SubdivIdTree) (a b : Nat) :
    (Nat × Bool) × SubdivIdTree :=
  let comb := hash_id_combination a b
  match t.m_parentsToId.lookup comb with
  | some v => ((v, false), t)
  | none =>
      let (id, t1) := t.create_root
      let parents := (listResize t1.m_idToParents t1.reg.m_exists.length).set id comb
      let cc1 := t1.m_idChildCount.set a ((t1.m_idChildCount.getD a 0 + 1) % 256)
      let cc2 := cc1.set b ((cc1.getD b 0 + 1) % 256)
      ((id, true),
        { reg := t1.reg
          m_parentsToId := (comb, id) :: t1.m_parentsToId
          m_idToParents := parents
          m_idChildCount := cc2 })

/-- Embedding of `planeta::SubdivSkeleton`: a vertex id tree plus the
parallel `uint8_t` reference-count vector. -/
structure SubdivSkeleton where
  m_vrtxIdTree : SubdivIdTree
  m_vrtxRefCount : List Nat
deriving DecidableEq

/-- The empty skeleton. -/
def SubdivSkeleton.empty : SubdivSkeleton :=
  { m_vrtxIdTree := SubdivIdTree.empty, m_vrtxRefCount := [] }

/-- Embedding of `SubdivSkeleton::vrtx_create_root`. -/
def SubdivSkeleton.vrtx_create_root (sk : SubdivSkeleton) :
    Nat × SubdivSkeleton :=
  let (vrtxId, tree') := sk.m_vrtxIdTree.create_root
  (vrtxId,
    { m_vrtxIdTree := tree'
      m_vrtxRefCount :=
        (listResize sk.m_vrtxRefCount tree'.reg.m_exists.length).set vrtxId 0 })

/-- Embedding of `SubdivSkeleton::vrtx_create_or_get_child`: on creation,
grow the reference-count vector to `size_required()` and zero the new
entry. -/
def SubdivSkeleton.vrtx_create_or_get_child (sk : SubdivSkeleton)
    (a b : Nat) : Nat × SubdivSkeleton :=
  let ((vrtxId, created), tree') := sk.m_vrtxIdTree.create_or_get a b
  if created then
    (vrtxId,
      { m_vrtxIdTree := tree'
        m_vrtxRefCount :=
          (listResize sk.m_vrtxRefCount tree'.reg.m_exists.length).set vrtxId 0 })
  else
    (vrtxId, { sk with m_vrtxIdTree := tree' })

/-- Embedding of `SubdivSkeleton::vrtx_refcount_add`: a plain `uint8_t`
increment, wrapping modulo 256. -/
def SubdivSkeleton.vrtx_refcount_add (sk : SubdivSkeleton) (id : Nat) :
    SubdivSkeleton :=
  { sk with
    m_vrtxRefCount :=
      sk.m_vrtxRefCount.set id ((sk.m_vrtxRefCount.getD id 0 + 1) % 256) }

/-- Embedding of `SubdivSkeleton::vrtx_refcount_remove`: a plain `uint8_t`
decrement, wrapping modulo 256 (adding 255 modulo 256 is the unsigned
8-bit decrement). -/
def SubdivSkeleton.vrtx_refcount_remove (sk : SubdivSkeleton) (id : Nat) :
    SubdivSkeleton :=
  { sk with
    m_vrtxRefCount :=
      sk.m_vrtxRefCount.set id ((sk.m_vrtxRefCount.getD id 0 + 255) % 256) }

/-- Embedding of
`SubdivTriangleSkeleton::vrtx_create_chunk_edge_recurse(level, a, b, rOut)`:
if `level` is zero, return; otherwise create-or-get the midpoint child of
`(a, b)`, write it at index `rOut.size() / 2`, and recurse on the
`prefix(halfSize)` and `suffix(halfSize)` views (the view starting at
index `halfSize`, embedded as `take` and `drop` of the list and
reassembled by appending). -/
def vrtx_create_chunk_edge_recurse :
    Nat → SubdivSkeleton → Nat → Nat → List Nat → SubdivSkeleton × List Nat
  | 0, sk, _, _, rOut => (sk, rOut)
  | level + 1, sk, a, b, rOut =>
      let (mid, sk1) := sk.vrtx_create_or_get_child a b
      let halfSize := rOut.length / 2
      let rOut1 := rOut.set halfSize mid
      let (sk2, left) :=
        vrtx_create_chunk_edge_recurse level sk1 a mid (rOut1.take halfSize)
      let (sk3, right) :=
        vrtx_create_chunk_edge_recurse level sk2 mid b (rOut1.drop halfSize)
      (sk3, left ++ right)

/-- Specification sequence, following the spec's words (§4.4): the
midpoint subdivision sequence between `a` and `b` of length
`2^level − 1`, with the midpoint at the middle index and the two halves
filled recursively from `(a, mid)` and `(mid, b)`.  The skeleton is
threaded through in the same order as the code creates the vertices. -/
def midpointSpecSeq :
    Nat → SubdivSkeleton → Nat → Nat → SubdivSkeleton × List Nat
  | 0, sk, _, _ => (sk, [])
  | level + 1, sk, a, b =>
      let (mid, sk1) := sk.vrtx_create_or_get_child a b
      let (sk2, leftSeq) := midpointSpecSeq level sk1 a mid
      let (sk3, rightSeq) := midpointSpecSeq level sk2 mid b
      (sk3, leftSeq ++ mid :: rightSeq)

/-! Facts about the edge-recursion views.  `suffix(halfSize)` is the view
from index `halfSize` to the end, so the right recursive call receives a
view of length `2^level` whose first slot holds the just-written midpoint;
the recursion never writes index 0 of such a view (its write index
`2^(level-1)` is positive), so the one-longer case below carries the head
along unchanged. -/

theorem getD_take_zero (l : List Nat) (h : Nat) (hh : 0 < h) :
    (l.take h).getD 0 0 = l.getD 0 0 := by
  rw [List.getD_eq_getElem?_getD, List.getD_eq_getElem?_getD,
    List.getElem?_take, if_pos hh]

theorem getD_set_ne (l : List Nat) (i : Nat) (x : Nat) (j : Nat)
    (hij : i ≠ j) : (l.set i x).getD j 0 = l.getD j 0 := by
  rw [List.getD_eq_getElem?_getD, List.getD_eq_getElem?_getD,
    List.getElem?_set_ne hij]

theorem getD_drop (l : List Nat) (n j : Nat) :
    (l.drop n).getD j 0 = l.getD (n + j) 0 := by
  rw [List.getD_eq_getElem?_getD, List.getD_eq_getElem?_getD,
    List.getElem?_drop]

theorem getD_set_self (l : List Nat) (i : Nat) (x : Nat)
    (hi : i < l.length) : (l.set i x).getD i 0 = x := by
  rw [List.getD_eq_getElem?_getD, List.getElem?_set_self]
  · rfl
  · exact hi

theorem chunkEdge_one_longer (level : Nat) :
    ∀ (sk : SubdivSkeleton) (a b : Nat) (out : List Nat),
      out.length = 2 ^ level →
      vrtx_create_chunk_edge_recurse level sk a b out =
        ((midpointSpecSeq level sk a b).1,
          out.getD 0 0 :: (midpointSpecSeq level sk a b).2) := by
  induction level with
  | zero =>
    intro sk a b out hlen
    obtain ⟨x, rfl⟩ := List.length_eq_one.mp hlen
    rfl
  | succ level ih =>
    intro sk a b out hlen
    have hhalf : out.length / 2 = 2 ^ level := by
      rw [hlen, pow_succ]
      omega
    have hpos : 0 < 2 ^ level := Nat.pos_pow_of_pos level (by norm_num)
    have hlt : 2 ^ level < out.length := by
      rw [hlen, pow_succ]
      omega
    rcases hmid : sk.vrtx_create_or_get_child a b with ⟨mid, sk1⟩
    rcases hspecL : midpointSpecSeq level sk1 a mid with ⟨sk2, seqL⟩
    rcases hspecR : midpointSpecSeq level sk2 mid b with ⟨sk3, seqR⟩
    have htake : ((out.set (out.length / 2) mid).take (out.length / 2)).length
        = 2 ^ level := by
      rw [List.length_take, List.length_set, hhalf]
      omega
    have hdrop : ((out.set (out.length / 2) mid).drop (out.length / 2)).length
        = 2 ^ level := by
      rw [List.length_drop, List.length_set, hhalf, hlen, pow_succ]
      omega
    have hleft := ih sk1 a mid
      ((out.set (out.length / 2) mid).take (out.length / 2)) htake
    have hright := ih sk2 mid b
      ((out.set (out.length / 2) mid).drop (out.length / 2)) hdrop
    rw [hspecL] at hleft
    rw [hspecR] at hright
    have hgtake : ((out.set (out.length / 2) mid).take (out.length / 2)).getD 0 0
        = out.getD 0 0 := by
      rw [getD_take_zero _ _ (by omega), getD_set_ne _ _ _ _ (by omega)]
    have hgdrop : ((out.set (out.length / 2) mid).drop (out.length / 2)).getD 0 0
        = mid := by
      rw [getD_drop, Nat.add_zero, getD_set_self _ _ _ (by omega)]
    simp only [vrtx_create_chunk_edge_recurse, midpointSpecSeq, hmid,
      hspecL, hspecR, hleft, hright, hgtake, hgdrop, List.cons_append]

theorem chunkEdge_exact (level : Nat) :
    ∀ (sk : SubdivSkeleton) (a b : Nat) (out : List Nat),
      out.length = 2 ^ level - 1 →
      vrtx_create_chunk_edge_recurse level sk a b out =
        midpointSpecSeq level sk a b := by
  induction level with
  | zero =>
    intro sk a b out hlen
    have : out = [] := List.length_eq_zero.mp (by simpa using hlen)
    subst this
    rfl
  | succ level ih =>
    intro sk a b out hlen
    have hpos : 0 < 2 ^ level := Nat.pos_pow_of_pos level (by norm_num)
    have hlen' : out.length = 2 * 2 ^ level - 1 := by
      rw [hlen, pow_succ]
      omega
    have hhalf : out.length / 2 = 2 ^ level - 1 := by
      omega
    rcases hmid : sk.vrtx_create_or_get_child a b with ⟨mid, sk1⟩
    rcases hspecL : midpointSpecSeq level sk1 a mid with ⟨sk2, seqL⟩
    rcases hspecR : midpointSpecSeq level sk2 mid b with ⟨sk3, seqR⟩
    have htake : ((out.set (out.length / 2) mid).take (out.length / 2)).length
        = 2 ^ level - 1 := by
      rw [List.length_take, List.length_set, hhalf]
      omega
    have hdrop : ((out.set (out.length / 2) mid).drop (out.length / 2)).length
        = 2 ^ level := by
      rw [List.length_drop, List.length_set, hhalf]
      omega
    have hleft := ih sk1 a mid
      ((out.set (out.length / 2) mid).take (out.length / 2)) htake
    have hright := chunkEdge_one_longer level sk2 mid b
      ((out.set (out.length / 2) mid).drop (out.length / 2)) hdrop
    rw [hspecL] at hleft
    rw [hspecR] at hright
    have hgdrop : ((out.set (out.length / 2) mid).drop (out.length / 2)).getD 0 0
        = mid := by
      rw [getD_drop, Nat.add_zero, getD_set_self _ _ _ (by omega)]
    simp only [vrtx_create_chunk_edge_recurse, midpointSpecSeq, hmid,
      hspecL, hspecR, hleft, hright, hgdrop]

/-! Symmetry and freshness of `create_or_get`. -/

theorem hash_id_combination_comm (a b : Nat) :
    hash_id_combination a b = hash_id_combination b a := by
  unfold hash_id_combination
  rcases lt_trichotomy a b with h | h | h
  · have h1 : ¬ (a > b) := by omega
    have h2 : b > a := h
    rw [if_neg h1, if_neg h1, if_pos h2, if_pos h2]
  · subst h
    rfl
  · have h1 : a > b := h
    have h2 : ¬ (b > a) := by omega
    rw [if_pos h1, if_pos h1, if_neg h2, if_neg h2]

theorem create_root_parentsToId (t : SubdivIdTree) :
    ((t.create_root).2).m_parentsToId = t.m_parentsToId := by
  unfold SubdivIdTree.create_root
  rcases hc : t.reg.create with ⟨cid, reg'⟩
  simp only [hc]

theorem create_or_get_comm (t : SubdivIdTree) (a b : Nat) :
    t.create_or_get a b = t.create_or_get b a := by
  by_cases hab : a = b
  · subst hab
    rfl
  · cases hl : t.m_parentsToId.lookup (hash_id_combination a b) with
    | some v =>
      simp only [SubdivIdTree.create_or_get, ← hash_id_combination_comm a b, hl]
    | none =>
      rcases hroot : t.create_root with ⟨id, t1⟩
      simp only [SubdivIdTree.create_or_get, ← hash_id_combination_comm a b,
        hl, hroot]
      rw [getD_set_ne _ _ _ _ hab, getD_set_ne _ _ _ _ (Ne.symm hab),
        List.set_comm _ _ _ hab]

theorem create_or_get_fresh_iff (t : SubdivIdTree) (a b : Nat) :
    (t.create_or_get a b).1.2 = true ↔
      t.m_parentsToId.lookup (hash_id_combination a b) = none := by
  cases hl : t.m_parentsToId.lookup (hash_id_combination a b) with
  | some v =>
    simp only [SubdivIdTree.create_or_get, hl]
    simp
  | none =>
    rcases hroot : t.create_root with ⟨id, t1⟩
    simp only [SubdivIdTree.create_or_get, hl, hroot]

/-- Operations on a `SubdivIdTree` (the ops a later caller may interleave
between two `create_or_get` calls for the same pair). -/
inductive TreeOp where
  | root : TreeOp
  | createOrGet (a b : Nat) : TreeOp
deriving DecidableEq

def applyTreeOp (t : SubdivIdTree) : TreeOp → SubdivIdTree
  | .root => (t.create_root).2
  | .createOrGet a b => (t.create_or_get a b).2

def applyTreeOps (ops : List TreeOp) (t : SubdivIdTree) : SubdivIdTree :=
  ops.foldl applyTreeOp t

theorem lookup_isSome_cons (m : List (Nat × Nat)) (c i k : Nat)
    (h : (m.lookup k).isSome = true) :
    (((c, i) :: m).lookup k).isSome = true := by
  simp only [List.lookup]
  cases hkc : (k == c)
  · simp only [hkc]
    exact h
  · simp only [hkc]
    rfl

theorem applyTreeOp_lookup_isSome (t : SubdivIdTree) (op : TreeOp) (k : Nat)
    (h : (t.m_parentsToId.lookup k).isSome = true) :
    ((applyTreeOp t op).m_parentsToId.lookup k).isSome = true := by
  cases op with
  | root =>
    simp only [applyTreeOp, create_root_parentsToId]
    exact h
  | createOrGet a b =>
    cases hl : t.m_parentsToId.lookup (hash_id_combination a b) with
    | some v =>
      simp only [applyTreeOp, SubdivIdTree.create_or_get, hl]
      exact h
    | none =>
      rcases hroot : t.create_root with ⟨id, t1⟩
      have ht1 : t1.m_parentsToId = t.m_parentsToId := by
        rw [← create_root_parentsToId t, hroot]
      simp only [applyTreeOp, SubdivIdTree.create_or_get, hl, hroot, ht1]
      exact lookup_isSome_cons _ _ _ _ h

theorem create_or_get_lookup_isSome (t : SubdivIdTree) (a b : Nat) :
    (((t.create_or_get a b).2).m_parentsToId.lookup
      (hash_id_combination a b)).isSome = true := by
  cases hl : t.m_parentsToId.lookup (hash_id_combination a b) with
  | some v =>
    simp only [SubdivIdTree.create_or_get, hl]
    simp [hl]
  | none =>
    rcases hroot : t.create_root with ⟨id, t1⟩
    simp only [SubdivIdTree.create_or_get, hl, hroot]
    simp only [List.lookup, beq_self_eq_true]
    rfl

theorem applyTreeOps_lookup_isSome (ops : List TreeOp) (t : SubdivIdTree)
    (k : Nat) (h : (t.m_parentsToId.lookup k).isSome = true) :
    ((applyTreeOps ops t).m_parentsToId.lookup k).isSome = true := by
  induction ops generalizing t with
  | nil => exact h
  | cons op ops ih =>
    exact ih (applyTreeOp t op) (applyTreeOp_lookup_isSome t op k h)

/-- The two-root tree of scenario 4 of the spec (§8): `create_root` twice
from the empty tree, yielding vertex ids 0 and 1. -/
def treeTwoRoots : SubdivIdTree :=
  ((SubdivIdTree.empty.create_root).2.create_root).2

/-- C5: `create_or_get` is symmetric in its two parents (the canonical
pair key makes the full result, fresh flag and successor state included,
identical); the fresh flag is true exactly when the unordered pair is not
yet in the pair map; once a pair has been queried, it stays in the map
across any further operations, so every later `create_or_get` for the same
unordered pair (in either order) returns `fresh = false`; in the two-root
scenario, `create_or_get(v0, v1)` returns `(v2, true)` and
`create_or_get(v1, v0)` then returns `(v2, false)`. -/
theorem C5_create_or_get_unordered (t : SubdivIdTree) (a b : Nat)
    (ops : List TreeOp) :
    (t.create_or_get a b = t.create_or_get b a) ∧
    ((t.create_or_get a b).1.2 = true ↔
      t.m_parentsToId.lookup (hash_id_combination a b) = none) ∧
    ((applyTreeOps ops ((t.create_or_get a b).2)).create_or_get a b).1.2
        = false ∧
    (treeTwoRoots.create_or_get 0 1).1 = (2, true) ∧
    (((treeTwoRoots.create_or_get 0 1).2).create_or_get 1 0).1 = (2, false) := by
  refine ⟨create_or_get_comm t a b, create_or_get_fresh_iff t a b, ?_,
    by decide, by decide⟩
  have hsome := applyTreeOps_lookup_isSome ops ((t.create_or_get a b).2)
    (hash_id_combination a b) (create_or_get_lookup_isSome t a b)
  rcases hfl : ((applyTreeOps ops ((t.create_or_get a b).2)).create_or_get a b).1.2 with _ | _
  · rfl
  · exfalso
    have := (create_or_get_fresh_iff
      (applyTreeOps ops ((t.create_or_get a b).2)) a b).mp hfl
    rw [this] at hsome
    cases hsome

/-- C6: for positive `level` and an output span of length `2^level − 1`,
the edge recursion overwrites every slot and produces exactly the spec's
midpoint subdivision sequence: the midpoint of `(a, b)` at the middle
index `(2^level − 1) / 2`, the left half filled recursively from
`(a, mid)` and the right half from `(mid, b)`, with the skeleton threaded
in the same creation order. -/
theorem C6_chunk_edge_recurse (level a b : Nat) (sk : SubdivSkeleton)
    (out : List Nat) (_hL : 0 < level) (hlen : out.length = 2 ^ level - 1) :
    vrtx_create_chunk_edge_recurse level sk a b out =
      midpointSpecSeq level sk a b :=
  chunkEdge_exact level sk a b out hlen

/-- The two-root skeleton used for the level-2 edge recursion scenario. -/
def skTwoRoots : SubdivSkeleton :=
  ((SubdivSkeleton.empty.vrtx_create_root).2.vrtx_create_root).2

/-- Witness for C6: the level-2 scenario of the spec (§8), with all three
slots of the output span overwritten regardless of their initial
contents. -/
theorem C6_witness :
    vrtx_create_chunk_edge_recurse 2 skTwoRoots 0 1 [99, 99, 99] =
      midpointSpecSeq 2 skTwoRoots 0 1 :=
  C6_chunk_edge_recurse 2 0 1 skTwoRoots [99, 99, 99] (by norm_num) (by norm_num)

/-! Child-count arithmetic of `create_or_get`.  The `uint8_t` increments
wrap modulo 256; the run below exhibits a parent taking part in 256
insertions, whose stored child count wraps from 255 back to 0. -/

theorem listResize_length (l : List Nat) (n : Nat) :
    (listResize l n).length = n := by
  unfold listResize
  rw [List.length_append, List.length_take, List.length_replicate]
  omega

theorem getD_listResize (l : List Nat) (n j : Nat) (hjl : j < l.length)
    (hjn : j < n) : (listResize l n).getD j 0 = l.getD j 0 := by
  unfold listResize
  rw [List.getD_eq_getElem?_getD, List.getD_eq_getElem?_getD,
    List.getElem?_append, List.length_take]
  rw [if_pos (by omega), List.getElem?_take, if_pos hjn]

theorem create_root_of_no_deleted (t : SubdivIdTree)
    (hdel : t.reg.m_deleted = []) :
    t.create_root =
      (t.reg.m_exists.length,
        { reg :=
            { m_exists := t.reg.m_exists ++ [true]
              m_deleted := []
              m_capacity := max t.reg.m_capacity (t.reg.m_exists.length + 1) }
          m_parentsToId := t.m_parentsToId
          m_idToParents := t.m_idToParents
          m_idChildCount :=
            (listResize t.m_idChildCount (t.reg.m_exists.length + 1)).set
              t.reg.m_exists.length 0 }) := by
  unfold SubdivIdTree.create_root IdRegistry.create
  simp only [hdel, List.length_append, List.length_cons, List.length_nil]

theorem lookup_eq_none_of_forall (m : List (Nat × Nat)) (k : Nat)
    (h : ∀ p ∈ m, p.1 ≠ k) : m.lookup k = none := by
  induction m with
  | nil => rfl
  | cons p m ih =>
    rcases p with ⟨c, i⟩
    simp only [List.lookup]
    cases hkc : (k == c)
    · exact ih (fun q hq => h q (List.mem_cons_of_mem _ hq))
    · exfalso
      exact h (c, i) (List.mem_cons_self _ _) ((beq_iff_eq.mp hkc).symm ▸ rfl)

theorem hash_id_combination_zero (m : Nat) : hash_id_combination 0 m = m := by
  unfold hash_id_combination
  have h0 : ¬ ((0 : Nat) > m) := by omega
  rw [if_neg h0, if_neg h0]
  simp only [Nat.zero_shiftLeft, Nat.or_zero]

/-- The tree holding 257 roots (ids 0 .. 256), created from the empty
tree. -/
def rootsRun (n : Nat) : SubdivIdTree :=
  (List.range n).foldl (fun t _ => (t.create_root).2) SubdivIdTree.empty

theorem rootsRun_spec (n : Nat) :
    (rootsRun n).reg.m_deleted = [] ∧
    (rootsRun n).reg.m_exists.length = n ∧
    (rootsRun n).m_idChildCount.length = n ∧
    (rootsRun n).m_parentsToId = [] ∧
    (rootsRun n).m_idChildCount.getD 0 0 = 0 := by
  induction n with
  | zero => exact ⟨rfl, rfl, rfl, rfl, rfl⟩
  | succ n ih =>
    obtain ⟨h1, h2, h3, h4, h5⟩ := ih
    have hstep : rootsRun (n + 1) = ((rootsRun n).create_root).2 := by
      unfold rootsRun
      rw [List.range_succ, List.foldl_append]
      rfl
    rw [hstep, create_root_of_no_deleted (rootsRun n) h1]
    refine ⟨rfl, ?_, ?_, h4, ?_⟩
    · simp [h2]
    · rw [List.length_set, listResize_length, h2]
    · rcases Nat.eq_zero_or_pos n with hn | hn
      · subst hn
        have : (rootsRun 0).m_idChildCount = [] :=
          List.length_eq_zero.mp h3
        rw [h2, this]
        rfl
      · rw [h2, getD_set_ne _ _ _ _ (by omega),
          getD_listResize _ _ _ (by omega) (by omega), h5]

/-- The run of scenario style used to refute saturation: after creating
257 roots, insert the 256 distinct pairs (0, 1), (0, 2), ..., (0, 256),
all sharing parent 0. -/
def treeRun (n : Nat) : SubdivIdTree :=
  (List.range n).foldl (fun t k => (t.create_or_get 0 (k + 1)).2) (rootsRun 257)

theorem treeRun_inv (n : Nat) :
    (treeRun n).reg.m_deleted = [] ∧
    (treeRun n).reg.m_exists.length = 257 + n ∧
    (treeRun n).m_idChildCount.length = 257 + n ∧
    (∀ p ∈ (treeRun n).m_parentsToId, p.1 ≤ n) ∧
    (treeRun n).m_idChildCount.getD 0 0 = n % 256 := by
  induction n with
  | zero =>
    have h0 : treeRun 0 = rootsRun 257 := by
      unfold treeRun
      rw [List.range_zero, List.foldl_nil]
    obtain ⟨h1, h2, h3, h4, h5⟩ := rootsRun_spec 257
    rw [h0]
    exact ⟨h1, h2, h3, by rw [h4]; simp, h5⟩
  | succ n ih =>
    obtain ⟨h1, h2, h3, h4, h5⟩ := ih
    have hstep : treeRun (n + 1) = ((treeRun n).create_or_get 0 (n + 1)).2 := by
      unfold treeRun
      rw [List.range_succ, List.foldl_append]
      rfl
    have hlook : (treeRun n).m_parentsToId.lookup
        (hash_id_combination 0 (n + 1)) = none := by
      rw [hash_id_combination_zero]
      exact lookup_eq_none_of_forall _ _ (fun p hp => by
        have := h4 p hp
        omega)
    have hroot := create_root_of_no_deleted (treeRun n) h1
    rw [hstep]
    simp only [SubdivIdTree.create_or_get, hlook, hroot]
    have hcclen1 : ((listResize (treeRun n).m_idChildCount
        ((treeRun n).reg.m_exists.length + 1)).set
          (treeRun n).reg.m_exists.length 0).length =
        (treeRun n).reg.m_exists.length + 1 := by
      rw [List.length_set, listResize_length]
    have hcc1getD : ((listResize (treeRun n).m_idChildCount
        ((treeRun n).reg.m_exists.length + 1)).set
          (treeRun n).reg.m_exists.length 0).getD 0 0 = n % 256 := by
      rw [getD_set_ne _ _ _ _ (by omega),
        getD_listResize _ _ _ (by omega) (by omega), h5]
    refine ⟨?_, ?_, ?_, ?_, ?_⟩
    · trivial
    · simp only [List.length_append, List.length_cons, List.length_nil, h2]
      omega
    · rw [List.length_set, List.length_set, hcclen1, h2]
      omega
    · intro p hp
      rcases List.mem_cons.mp hp with hpe | hpm
      · rw [hpe, hash_id_combination_zero]
      · have := h4 p hpm
        omega
    · rw [getD_set_ne _ _ _ _ (by omega),
        getD_set_self _ _ _ (by rw [hcclen1]; omega), hcc1getD]
      omega

/-- Counterexample to C7: in the run that creates 257 roots and then
inserts the 256 distinct pairs (0, 1) .. (0, 256), parent 0's stored child
count reaches 255 after 255 insertions and the 256th insertion wraps it
back to 0 — the `uint8_t` increment neither saturates at 255 nor fails. -/
theorem C7_counterexample :
    (treeRun 255).m_idChildCount.getD 0 0 = 255 ∧
      (treeRun 256).m_idChildCount.getD 0 0 = 0 := by
  constructor
  · rw [(treeRun_inv 255).2.2.2.2]
  · rw [(treeRun_inv 256).2.2.2.2]

/-- C7 (amended): when `create_or_get(a, b)` inserts a new pair (on a tree
with no freed ids pending, distinct live parents), each parent's stored
child count is incremented modulo 256 — an increment at 255 wraps to 0
rather than saturating or failing. -/
theorem C7_amended_child_count_mod (t : SubdivIdTree) (a b : Nat)
    (hl : t.m_parentsToId.lookup (hash_id_combination a b) = none)
    (hab : a ≠ b)
    (hdel : t.reg.m_deleted = [])
    (hlen : t.m_idChildCount.length = t.reg.m_exists.length)
    (ha : a < t.m_idChildCount.length) (hb : b < t.m_idChildCount.length) :
    (((t.create_or_get a b).2).m_idChildCount.getD a 0 =
        (t.m_idChildCount.getD a 0 + 1) % 256) ∧
    (((t.create_or_get a b).2).m_idChildCount.getD b 0 =
        (t.m_idChildCount.getD b 0 + 1) % 256) := by
  have hroot := create_root_of_no_deleted t hdel
  simp only [SubdivIdTree.create_or_get, hl, hroot]
  have hcclen1 : ((listResize t.m_idChildCount
      (t.reg.m_exists.length + 1)).set t.reg.m_exists.length 0).length =
      t.reg.m_exists.length + 1 := by
    rw [List.length_set, listResize_length]
  have hga : ((listResize t.m_idChildCount
      (t.reg.m_exists.length + 1)).set t.reg.m_exists.length 0).getD a 0 =
      t.m_idChildCount.getD a 0 := by
    rw [getD_set_ne _ _ _ _ (by omega), getD_listResize _ _ _ ha (by omega)]
  have hgb : ((listResize t.m_idChildCount
      (t.reg.m_exists.length + 1)).set t.reg.m_exists.length 0).getD b 0 =
      t.m_idChildCount.getD b 0 := by
    rw [getD_set_ne _ _ _ _ (by omega), getD_listResize _ _ _ hb (by omega)]
  constructor
  · rw [getD_set_ne _ _ _ _ (Ne.symm hab),
      getD_set_self _ _ _ (by rw [hcclen1]; omega), hga]
  · rw [getD_set_self _ _ _ (by rw [List.length_set, hcclen1]; omega),
      getD_set_ne _ _ _ _ hab, hgb]

/-- Witness for C7: the amended increment law applied to the first
insertion of the two-root tree, where both parents' child counts go from
0 to 1. -/
theorem C7_witness :
    ((treeTwoRoots.create_or_get 0 1).2.m_idChildCount.getD 0 0 =
        (treeTwoRoots.m_idChildCount.getD 0 0 + 1) % 256) ∧
    ((treeTwoRoots.create_or_get 0 1).2.m_idChildCount.getD 1 0 =
        (treeTwoRoots.m_idChildCount.getD 1 0 + 1) % 256) :=
  C7_amended_child_count_mod treeTwoRoots 0 1 (by decide) (by decide)
    (by decide) (by decide) (by decide) (by decide)

/-- The one-vertex skeleton: a single root vertex with reference count
0. -/
def skOneVrtx : SubdivSkeleton := (SubdivSkeleton.empty.vrtx_create_root).2

/-- Counterexample to C8: `vrtx_refcount_remove` on a vertex whose
reference count is 0 neither fails nor leaves the count unchanged — the
`uint8_t` decrement wraps the count to 255 (and the functions are
`noexcept`, surfacing no error). -/
theorem C8_counterexample :
    skOneVrtx.m_vrtxRefCount.getD 0 0 = 0 ∧
      (skOneVrtx.vrtx_refcount_remove 0).m_vrtxRefCount.getD 0 0 = 255 := by
  decide

/-- C8 (amended): `vrtx_refcount_add` and `vrtx_refcount_remove` wrap the
`uint8_t` reference count modulo 256 with no error surfaced: a remove at
count 0 yields 255 and an add at count 255 yields 0. -/
theorem C8_amended_refcount_mod (sk : SubdivSkeleton) (id : Nat)
    (hid : id < sk.m_vrtxRefCount.length) :
    ((sk.vrtx_refcount_add id).m_vrtxRefCount.getD id 0 =
        (sk.m_vrtxRefCount.getD id 0 + 1) % 256) ∧
    ((sk.vrtx_refcount_remove id).m_vrtxRefCount.getD id 0 =
        (sk.m_vrtxRefCount.getD id 0 + 255) % 256) ∧
    (sk.m_vrtxRefCount.getD id 0 = 0 →
      (sk.vrtx_refcount_remove id).m_vrtxRefCount.getD id 0 = 255) ∧
    (sk.m_vrtxRefCount.getD id 0 = 255 →
      (sk.vrtx_refcount_add id).m_vrtxRefCount.getD id 0 = 0) := by
  have hadd : (sk.vrtx_refcount_add id).m_vrtxRefCount.getD id 0 =
      (sk.m_vrtxRefCount.getD id 0 + 1) % 256 := by
    unfold SubdivSkeleton.vrtx_refcount_add
    exact getD_set_self _ _ _ hid
  have hrem : (sk.vrtx_refcount_remove id).m_vrtxRefCount.getD id 0 =
      (sk.m_vrtxRefCount.getD id 0 + 255) % 256 := by
    unfold SubdivSkeleton.vrtx_refcount_remove
    exact getD_set_self _ _ _ hid
  refine ⟨hadd, hrem, fun h0 => ?_, fun h255 => ?_⟩
  · rw [hrem, h0]
  · rw [hadd, h255]

/-- Witness for C8: the amended wrap law applied to the one-vertex
skeleton. -/
theorem C8_witness :
    ((skOneVrtx.vrtx_refcount_add 0).m_vrtxRefCount.getD 0 0 =
        (skOneVrtx.m_vrtxRefCount.getD 0 0 + 1) % 256) ∧
    ((skOneVrtx.vrtx_refcount_remove 0).m_vrtxRefCount.getD 0 0 =
        (skOneVrtx.m_vrtxRefCount.getD 0 0 + 255) % 256) ∧
    (skOneVrtx.m_vrtxRefCount.getD 0 0 = 0 →
      (skOneVrtx.vrtx_refcount_remove 0).m_vrtxRefCount.getD 0 0 = 255) ∧
    (skOneVrtx.m_vrtxRefCount.getD 0 0 = 255 →
      (skOneVrtx.vrtx_refcount_add 0).m_vrtxRefCount.getD 0 0 = 0) :=
  C8_amended_refcount_mod skOneVrtx 0 (by decide)

/-- A registry with capacity 1 whose single slot has been created and then
removed: the dense array is at capacity and the freed stack holds slot
0. -/
def regAtCapFreed : IdRegistry :=
  { m_exists := [false], m_deleted := [0], m_capacity := 1 }

/-- Counterexample to C9: a no-auto-resize registry whose dense array is
at capacity but whose freed stack is non-empty (reached by `create` then
`remove`) — `create` succeeds by reusing the freed slot instead of
failing with `CapacityExceeded`. -/
theorem C9_counterexample :
    ((IdRegistry.mkReserved 1).createNoResize =
        .ok (0, { m_exists := [true], m_deleted := [], m_capacity := 1 })) ∧
    (({ m_exists := [true], m_deleted := [], m_capacity := 1 :
        IdRegistry }).remove 0 = regAtCapFreed) ∧
    regAtCapFreed.m_exists.length = regAtCapFreed.m_capacity ∧
    regAtCapFreed.createNoResize =
      .ok (0, { m_exists := [true], m_deleted := [], m_capacity := 1 }) := by
  refine ⟨?_, ?_, ?_, ?_⟩ <;> rfl

/-- C9 (amended): with the no-auto-resize flag set, `create` fails with
`CapacityExceeded` exactly when the dense array is at capacity and the
freed stack is empty, and a successful `create` never grows the dense
array beyond the reserved capacity (which it leaves unchanged). -/
theorem C9_amended_capacity (r : IdRegistry)
    (hlc : r.m_exists.length ≤ r.m_capacity) :
    (r.m_deleted = [] → r.m_exists.length = r.m_capacity →
      r.createNoResize = .error .CapacityExceeded) ∧
    (∀ id r', r.createNoResize = .ok (id, r') →
      r'.m_exists.length ≤ r'.m_capacity ∧ r'.m_capacity = r.m_capacity) := by
  unfold IdRegistry.createNoResize
  cases hdel : r.m_deleted with
  | cons d rest =>
    refine ⟨fun hnil => absurd hnil (List.cons_ne_nil d rest),
      fun id r' hok => ?_⟩
    simp only [Except.ok.injEq, Prod.mk.injEq] at hok
    obtain ⟨_, hr'⟩ := hok
    rw [← hr']
    refine ⟨?_, ?_⟩
    · simp only [List.length_set]
      exact hlc
    · rfl
  | nil =>
    by_cases hcap : r.m_exists.length = r.m_capacity
    · rw [if_pos hcap]
      exact ⟨fun _ _ => rfl, fun id r' hok => by cases hok⟩
    · rw [if_neg hcap]
      refine ⟨fun _ h => absurd h hcap, fun id r' hok => ?_⟩
      simp only [Except.ok.injEq, Prod.mk.injEq] at hok
      obtain ⟨_, hr'⟩ := hok
      rw [← hr']
      refine ⟨?_, ?_⟩
      · simp only [List.length_append, List.length_cons, List.length_nil]
        omega
      · simp only
        omega

/-- Witness for C9: the amended law applied to the at-capacity registry
with a freed slot, and its failure half exercised on the full registry
with an empty freed stack. -/
theorem C9_witness :
    (({ m_exists := [true], m_deleted := [], m_capacity := 1 :
          IdRegistry }).m_deleted = [] →
      ({ m_exists := [true], m_deleted := [], m_capacity := 1 :
          IdRegistry }).m_exists.length =
        ({ m_exists := [true], m_deleted := [], m_capacity := 1 :
          IdRegistry }).m_capacity →
      ({ m_exists := [true], m_deleted := [], m_capacity := 1 :
          IdRegistry }).createNoResize = .error .CapacityExceeded) ∧
    (∀ id r', ({ m_exists := [true], m_deleted := [], m_capacity := 1 :
          IdRegistry }).createNoResize = .ok (id, r') →
      r'.m_exists.length ≤ r'.m_capacity ∧ r'.m_capacity = 1) :=
  C9_amended_capacity
    { m_exists := [true], m_deleted := [], m_capacity := 1 } (by decide)

/-- C10: whenever the freed stack is non-empty, `create` on a
no-auto-resize registry succeeds — reuse is attempted before the capacity
check, so the capacity-exceeded branch is unreachable — and it returns the
most recently freed slot, marking it live again and leaving the dense
array's length unchanged. -/
theorem C10_create_reuses_freed (r : IdRegistry) (d : Nat) (rest : List Nat)
    (hdel : r.m_deleted = d :: rest) (hd : d < r.m_exists.length) :
    r.createNoResize =
      .ok (d, { r with m_exists := r.m_exists.set d true, m_deleted := rest }) ∧
    (r.m_exists.set d true).getD d false = true ∧
    (r.m_exists.set d true).length = r.m_exists.length := by
  refine ⟨?_, ?_, List.length_set r.m_exists d true⟩
  · unfold IdRegistry.createNoResize
    rw [hdel]
  · rw [List.getD_eq_getElem?_getD, List.getElem?_set_self hd]
    rfl

/-- Witness for C10: reuse of the freed slot of the at-capacity registry
`regAtCapFreed`, which the capacity check would otherwise reject. -/
theorem C10_witness :
    regAtCapFreed.createNoResize =
      .ok (0, { regAtCapFreed with
        m_exists := regAtCapFreed.m_exists.set 0 true, m_deleted := [] }) ∧
    (regAtCapFreed.m_exists.set 0 true).getD 0 false = true ∧
    (regAtCapFreed.m_exists.set 0 true).length =
      regAtCapFreed.m_exists.length :=
  C10_create_reuses_freed regAtCapFreed 0 [] (by decide) (by decide)

end OspMagnum
